import Mathlib

/-!
RediSearchBenchmark: ingestion pipeline, Wikipedia dump reader, elastic index creation.

A shallow embedding of three pieces of the repository:

* `ingest/ingest.go`, function `IngestDocuments` (the chunked drain loop, the
  worker queue and the final flush of the trailing chunk);
* `ingest/wikipedia_dump.go`, function `readWikiDump`;
* `index/elastic/elastic.go`, functions `fieldTypeString` and `Index.Create`.

Conventions of the embedding.

* Go `int` is 64 bits wide.  The counters `i`, `n`, `dt` and `totalDt` are
  natural numbers: they only ever grow by document counts and string lengths
  and stay far below `2^63`.  The one product the code computes, `chunk*2`, is
  taken modulo `2^64` (`wrapInt`), and `ChunkSize` is meant to range over the
  values of a Go `int`.
* `Document.Score` is a `float32` in Go.  The code only compares it with zero
  and overwrites it with a literal, so it is represented by the rational
  number it denotes.
* The reader channel is the list of the documents sent on it, together with a
  flag telling whether the reader closes the channel after the last of them
  (`readWikiDump` never does).
* A Go `map[string]T` is an association list with unique keys; the assignment
  `m[k] = v` is `mapInsert`.
* Calls of `idx.Index` are taken to return, so a started worker always comes
  back to receive from the queue; the real time of the wall clock, from which
  the printed rates are computed, is left out.
* `make` panics on a length it refuses (negative, or beyond `maxSliceLen`), and
  the allocation fails beyond what the machine has memory for: that amount is
  the parameter `room` of `IngestDocuments`.
-/

namespace RediSearchBenchmark

/-! ## Document model (`index.Document`) -/

/-- A property value (`interface{}` in Go).  Only the dynamic type `string` is
inspected by the pipeline; the other constructors stand for every other
dynamic type. -/
inductive Value where
  | str (s : String)
  | num (x : Rat)
  | bool (b : Bool)
  | null
deriving DecidableEq

/-- The struct `index.Document`: it is passed by value everywhere in the code
(`chan index.Document`, `[]index.Document`), so assigning it copies `Id` and
`Score`. -/
structure Document where
  Id : String
  Score : Rat
  Properties : List (String × Value)
deriving DecidableEq

/-- The Go zero value of `index.Document`, which fills a freshly made slice. -/
def zeroDoc : Document := ⟨"", 0, []⟩

/-! ## `ingest.IngestDocuments` -/

/-- The struct `ingest.IngestOptions`. -/
structure IngestOptions where
  ChunkSize : Int
  Concurrency : Int
  Limit : Int
deriving DecidableEq

/-- The literal `0.0000001` assigned to a zero score. -/
def epsilon : Rat := 1 / 10000000

/-- Capacity of the worker queue: `make(chan index.Document, 100)`. -/
def queueCapacity : Nat := 100

/-- The value of a Go `int` expression whose mathematical value is `x`:
two's complement on 64 bits. -/
def wrapInt (x : Int) : Int := (x + 2 ^ 63) % 2 ^ 64 - 2 ^ 63

/-- The largest length `make([]index.Document, n)` accepts.  The runtime panics
("makeslice: len out of range") when `n` is negative or when `n` elements take
more than the `2^48` bytes a 64-bit heap can address; a `Document` with the
fields the code uses (a string, a `float32` and a map) takes 32 bytes. -/
def maxSliceLen : Int := 2 ^ 43

/-- Observable actions of the producer loop, in program order. -/
inductive Event where
  /-- The loop `for _, d := range docs { doch <- d }` sent these documents on the
  worker queue, in this order. -/
  | push (items : List Document)
  /-- The throughput report printed at a chunk boundary: the document count `i`,
  and the counters `n`, `dt` and `totalDt` its three rates are computed from. -/
  | report (i n dt totalDt : Nat)
  /-- The call `go idx.Index(docs[:i%chunk], opts)` started after the loop. -/
  | index (batch : List Document)
deriving DecidableEq

/-- How a run of `IngestDocuments` ends. -/
inductive Outcome where
  /-- The function executed `return nil`. -/
  | returned
  /-- The producer is blocked for ever on a send to the full worker queue, which
  no worker receives from (the Go runtime aborts the program when it finds
  every goroutine asleep): the function never returns. -/
  | blocked
  /-- The producer waits for ever to receive from the reader channel, which has
  delivered all its documents and is never closed: the function never
  returns. -/
  | waiting
  /-- The program dies: `make` refused the length of the staging buffer or could
  not allocate it, or an index into the staging buffer was out of range. -/
  | panicked
deriving DecidableEq

/-- The local variables of `IngestDocuments` that live across loop iterations.
`sent` counts the documents sent on `doch` so far. -/
structure LoopState where
  docs : List Document
  i : Nat
  n : Nat
  dt : Nat
  totalDt : Nat
  sent : Nat

/-- What a run did: how it ended, what it did, and the documents left unread on
the reader channel. -/
structure Result where
  outcome : Outcome
  trace : List Event
  rest : List Document
deriving DecidableEq

/-- The value added to `dt` and `totalDt` by the loop over `doc.Properties`:
`len(s) + len(k)` for every string-valued property. -/
def stringBytes : List (String × Value) → Nat
  | [] => 0
  | (k, Value.str s) :: kvs => (s.utf8ByteSize + k.utf8ByteSize) + stringBytes kvs
  | (_, _) :: kvs => stringBytes kvs

/-- The loop `for _, d := range docs { doch <- d }`.  A send succeeds when a
worker is there to receive (`Concurrency ≥ 1`) or the buffer of the channel has
room; with no worker the send that finds the buffer full never completes.
Returns the documents sent and whether the loop ran to its end. -/
def sendAll (conc : Int) : List Document → Nat → List Document × Bool
  | [], _ => ([], true)
  | d :: ds, sent =>
    if 1 ≤ conc ∨ sent < queueCapacity then
      ((d :: (sendAll conc ds (sent + 1)).1), (sendAll conc ds (sent + 1)).2)
    else ([], false)

/-- The loop `for doc := range ch` of `IngestDocuments` together with the code
after it (the flush of the trailing chunk).  `chunk` is the absolute value of
the Go variable `chunk`: the counter `i` is never negative, so the Go remainder
`i%chunk` is the remainder by that absolute value.  `closes` tells whether the
reader closes its channel after the last document; when it does not, the loop
never ends. -/
def drain (closes : Bool) (chunk : Nat) (conc limit : Int) :
    List Document → LoopState → Result
  | [], st =>
    if closes = false then ⟨Outcome.waiting, [], []⟩
    else if st.i % chunk ≠ 0 then
      ⟨Outcome.returned, [Event.index (st.docs.take (st.i % chunk))], []⟩
    else ⟨Outcome.returned, [], []⟩
  | doc :: rest, st =>
    if st.docs.length ≤ st.i % chunk then ⟨Outcome.panicked, [], rest⟩ else
    let docs := st.docs.set (st.i % chunk) doc
    let doc1 : Document := if doc.Score = 0 then { doc with Score := epsilon } else doc
    let dt := st.dt + stringBytes doc1.Properties
    let totalDt := st.totalDt + stringBytes doc1.Properties
    let i := st.i + 1
    let n := st.n + 1
    if i % chunk = 0 then
      let s := sendAll conc docs st.sent
      if s.2 = false then ⟨Outcome.blocked, [Event.push s.1], rest⟩
      else if 0 < limit ∧ limit ≤ (i : Int) then
        ⟨Outcome.returned, [Event.push s.1, Event.report i n dt totalDt], rest⟩
      else
        let r := drain closes chunk conc limit rest ⟨docs, i, 0, 0, totalDt, st.sent + s.1.length⟩
        ⟨r.outcome, Event.push s.1 :: Event.report i n dt totalDt :: r.trace, r.rest⟩
    else if 0 < limit ∧ limit ≤ (i : Int) then ⟨Outcome.returned, [], rest⟩
    else drain closes chunk conc limit rest ⟨docs, i, n, dt, totalDt, st.sent⟩

/-- The function `IngestDocuments` from the point where the reader channel has
been obtained (`os.Open` and `r.Read` both succeeded; when one of them fails
the function returns that error before anything else happens).  `ch` is the
sequence of documents the reader sends and `closes` tells whether it closes the
channel afterwards; `room` is the largest number of documents the machine at
hand has memory for in one slice.  The staging buffer is made with the length
`chunk*2` as a Go `int` computes it: the program dies before any document is
read when that length is negative or beyond `maxSliceLen` (`make` panics) or
beyond `room` (the allocation fails). -/
def IngestDocuments (room : Int) (ch : List Document) (closes : Bool) (iopts : IngestOptions) :
    Result :=
  let chunk : Int := if iopts.ChunkSize = 0 then 1000 else iopts.ChunkSize
  let len : Int := wrapInt (chunk * 2)
  if len < 0 ∨ min maxSliceLen room < len then ⟨Outcome.panicked, [], ch⟩
  else
    drain closes chunk.natAbs iopts.Concurrency iopts.Limit ch
      ⟨List.replicate len.toNat zeroDoc, 0, 0, 0, 0, 0⟩

/-- The documents the workers receive from the queue: everything pushed, in
queue order. -/
def pushed : List Event → List Document
  | [] => []
  | Event.push items :: es => items ++ pushed es
  | _ :: es => pushed es

/-- The arguments of the `idx.Index` calls made by the worker goroutines once
the queue has been drained: each worker calls `idx.Index([]index.Document{doc})`
for every received document with a non-empty `Id`.  With `Concurrency < 1` no
worker is started.  The list is in queue order; the order in which concurrent
workers really make the calls is not determined. -/
def workerCalls (conc : Int) (trace : List Event) : List (List Document) :=
  if 1 ≤ conc then ((pushed trace).filter (fun d => d.Id ≠ "")).map (fun d => [d]) else []

/-- The arguments of the `idx.Index` calls made by the producer itself. -/
def flushCalls : List Event → List (List Document)
  | [] => []
  | Event.index batch :: es => batch :: flushCalls es
  | _ :: es => flushCalls es

/-- Every `idx.Index` call of a run: the workers, then the final flush. -/
def indexCalls (conc : Int) (trace : List Event) : List (List Document) :=
  workerCalls conc trace ++ flushCalls trace

/-- The documents pushed at each chunk boundary, one entry per boundary. -/
def dispatches : List Event → List (List Document)
  | [] => []
  | Event.push items :: es => items :: dispatches es
  | _ :: es => dispatches es

/-- The quantities a throughput report is computed from: the cumulative
document count `i`, the interval document count `n`, the interval byte count
`dt` and the cumulative byte count `totalDt`. -/
structure Report where
  i : Nat
  n : Nat
  dt : Nat
  totalDt : Nat
deriving DecidableEq

/-- The reports of a run, in the order they were printed. -/
def reports : List Event → List Report
  | [] => []
  | Event.report i n dt totalDt :: es => ⟨i, n, dt, totalDt⟩ :: reports es
  | _ :: es => reports es

/-- The effective chunk size: `ChunkSize`, or 1000 when `ChunkSize` is 0. -/
def chunkOf (iopts : IngestOptions) : Nat :=
  (if iopts.ChunkSize = 0 then (1000 : Int) else iopts.ChunkSize).natAbs

/-- The number of documents a run received from the reader channel. -/
def pulled (ch : List Document) (res : Result) : Nat := ch.length - res.rest.length

/-- The number of documents the loop is due to read from a source: `Limit` of
them when the limit is positive and the source has that many, all of them
otherwise. -/
def intake (ch : List Document) (iopts : IngestOptions) : Nat :=
  if 0 < iopts.Limit ∧ iopts.Limit ≤ (ch.length : Int) then iopts.Limit.toNat else ch.length

/-! ### Auxiliary definitions used to state the behaviour of the drain loop -/

/-- Total string bytes of a list of documents, as added to `totalDt`. -/
def sourceBytes : List Document → Nat
  | [] => 0
  | d :: ds => stringBytes d.Properties + sourceBytes ds

/-- The events of `k` complete chunks of `src`, when the first of them starts
at document count `i` with cumulative byte total `T`. -/
def chunkTrace (c : Nat) : Nat → Nat → Nat → List Document → List Event
  | 0, _, _, _ => []
  | k + 1, i, T, src =>
    Event.push (src.take c ++ List.replicate c zeroDoc) ::
      Event.report (i + c) c (sourceBytes (src.take c)) (T + sourceBytes (src.take c)) ::
      chunkTrace c k (i + c) (T + sourceBytes (src.take c)) (src.drop c)

/-- The loop state at a chunk boundary: the lower half of the staging buffer
holds the previous chunk, the upper half has never been written, and the
interval counters have been reset. -/
def Aligned (c : Nat) (st : LoopState) : Prop :=
  (∃ old, st.docs = old ++ List.replicate c zeroDoc ∧ old.length = c) ∧
    st.i % c = 0 ∧ st.n = 0 ∧ st.dt = 0

/-- The loop state `IngestDocuments` starts the drain loop with. -/
def initialState (c : Nat) : LoopState := ⟨List.replicate (c * 2) zeroDoc, 0, 0, 0, 0, 0⟩

/-! ## Go maps with string keys -/

/-- The assignment `m[k] = v` on a Go map, as an association list with unique
keys: an existing entry for `k` is overwritten, otherwise one is added. -/
def mapInsert {V : Type} : List (String × V) → String → V → List (String × V)
  | [], k, v => [(k, v)]
  | (k1, v1) :: rest, k, v =>
    if k1 = k then (k, v) :: rest else (k1, v1) :: mapInsert rest k v

/-- The lookup `m[k]` on a Go map, `none` when the key is absent. -/
def mapLookup {V : Type} : List (String × V) → String → Option V
  | [], _ => none
  | (k1, v1) :: rest, k => if k1 = k then some v1 else mapLookup rest k

/-! ## `ingest.readWikiDump` -/

/-- A revision of a page as delivered by the dump parser; only `Text` is read. -/
structure Revision where
  Text : String
deriving DecidableEq

/-- A page as delivered by the dump parser (`wikiparse.Page`): the fields
`readWikiDump` reads. -/
structure Page where
  ID : Nat
  Title : String
  Revisions : List Revision
deriving DecidableEq

/-- What one call of `p.Next()` returns: a page and a nil error, the error
`io.EOF`, or any other error (a record the parser could not decode). -/
inductive ParseResult where
  | page (pg : Page)
  | eof
  | malformed (msg : String)
deriving DecidableEq

/-- How `readWikiDump` ends: it prints "Parsing done!" and returns, or it
panics on `page.Revisions[0]` for a page without revisions. -/
inductive ReaderOutcome where
  | done
  | panicked
deriving DecidableEq

/-- The documents `readWikiDump` sends on its channel, in order, and how it
ends. -/
structure ReaderResult where
  docs : List Document
  outcome : ReaderOutcome
deriving DecidableEq

/-- Modelled from the spec: `index.NewDocument`, declared outside the files at
hand, builds a document with the given id and score and no property yet. -/
def NewDocument (id : String) (score : Rat) : Document := ⟨id, score, []⟩

/-- Modelled from the spec: the method `Document.Set`, declared outside the
files at hand, binds a field name to a value in `Properties` and returns the
document. -/
def Document.Set (d : Document) (name : String) (value : Value) : Document :=
  { d with Properties := mapInsert d.Properties name value }

/-- The document `readWikiDump` builds from a page whose first revision has
the given text.  `urlForFile` stands for the library function
`wikiparse.URLForFile`. -/
def pageDocument (urlForFile : String → String) (pg : Page) (body : String) : Document :=
  (((NewDocument ("WP_" ++ toString pg.ID) 1).Set "title" (Value.str pg.Title)).Set
    "body" (Value.str body)).Set "url" (Value.str (urlForFile pg.Title))

/-- The function `readWikiDump`, on the outcomes of the successive calls of
`p.Next()`; a parser whose outcomes are used up returns `io.EOF`.  The variable
`err` tested by the loop header is shadowed by the `err` declared in the body
and stays nil, so the header never ends the loop: only the `break` taken on a
non-nil error does.  Sends on the channel are taken to complete. -/
def readWikiDump (urlForFile : String → String) : List ParseResult → ReaderResult
  | [] => ⟨[], ReaderOutcome.done⟩
  | ParseResult.eof :: _ => ⟨[], ReaderOutcome.done⟩
  | ParseResult.malformed _ :: _ => ⟨[], ReaderOutcome.done⟩
  | ParseResult.page pg :: rest =>
    match pg.Revisions with
    | [] => ⟨[], ReaderOutcome.panicked⟩
    | rev :: _ =>
      ⟨pageDocument urlForFile pg rev.Text :: (readWikiDump urlForFile rest).docs,
        (readWikiDump urlForFile rest).outcome⟩

/-- The document emitted for a page: built from its first revision (only used
for pages that have one). -/
def emitted (urlForFile : String → String) (pg : Page) : Document :=
  pageDocument urlForFile pg ((pg.Revisions.head?.map Revision.Text).getD "")

/-- The pages a parser delivers before its first outcome that is not a page. -/
def leadingPages : List ParseResult → List Page
  | ParseResult.page pg :: rest => pg :: leadingPages rest
  | _ => []

/-! ## `elastic.fieldTypeString` and `elastic.Index.Create` -/

/-- Modelled from the spec: the type `index.FieldType` with its constants
`TextField` and `NumericField` is declared outside the files at hand.  The spec
names the semantic types Text and Numeric; the `default` branch of
`fieldTypeString` shows that the Go type has further values, for which `other`
stands. -/
inductive FieldType where
  | TextField
  | NumericField
  | other (code : Nat)
deriving DecidableEq

/-- Modelled from the spec: a field descriptor of `index.Metadata` with its
name, type and weight (`Type` is a reserved word, hence `Type_`). -/
structure Field where
  Name : String
  Type_ : FieldType
  Weight : Rat
deriving DecidableEq

/-- Modelled from the spec: `index.Metadata`, the ordered field descriptors
bound to an index. -/
structure Metadata where
  Fields : List Field
deriving DecidableEq

/-- A value stored in a `mappingProperty` (`interface{}` in Go): the code
stores strings and one boolean. -/
inductive MappingValue where
  | str (s : String)
  | bool (b : Bool)
deriving DecidableEq

/-- The type `mappingProperty`, a `map[string]interface{}`. -/
abbrev mappingProperty := List (String × MappingValue)

/-- The struct `mapping`. -/
structure mapping where
  Properties : List (String × mappingProperty)
deriving DecidableEq

/-- The fields of the elastic `Index` struct that `Create` reads (the
connection is represented by the `respond` argument of `Create`). -/
structure Index where
  md : Metadata
  name : String
  typ : String
deriving DecidableEq

/-- The function `fieldTypeString`. -/
def fieldTypeString : FieldType → Except String String
  | FieldType.TextField => Except.ok "string"
  | FieldType.NumericField => Except.ok "double"
  | _ => Except.error "Unsupported field type"

/-- The loop of `Create` over `i.md.Fields`, which fills `doc.Properties` and
returns at the first field without a backend type. -/
def buildProperties :
    List Field → List (String × mappingProperty) → Except String (List (String × mappingProperty))
  | [], props => Except.ok props
  | f :: fs, props =>
    match fieldTypeString f.Type_ with
    | Except.error e => Except.error e
    | Except.ok ts =>
      buildProperties fs
        (mapInsert (mapInsert props f.Name []) f.Name (mapInsert [] "type" (MappingValue.str ts)))

/-- The mapping of the autocomplete type, written out by hand in `Create`. -/
def autocompleteMapping : mapping :=
  ⟨[("sugg", [("type", MappingValue.str "completion"), ("payloads", MappingValue.bool true)])]⟩

/-- The create-index request `i.conn.CreateIndex(i.name).BodyJson(...)`: the
index name and the value under the key "mappings". -/
structure CreateIndexRequest where
  name : String
  mappings : List (String × mapping)
deriving DecidableEq

/-- What `Create` did: the create-index request it issued, if any, and the
error it returned (`none` for nil). -/
structure CreateResult where
  request : Option CreateIndexRequest
  err : Option String
deriving DecidableEq

/-- The method `Index.Create`.  `respond` is the error the backend answers a
create-index request with. -/
def Create (i : Index) (respond : CreateIndexRequest → Option String) : CreateResult :=
  match buildProperties i.md.Fields [] with
  | Except.error e => ⟨none, some e⟩
  | Except.ok props =>
    let req : CreateIndexRequest :=
      ⟨i.name, mapInsert (mapInsert [] i.typ ⟨props⟩) "autocomplete" autocompleteMapping⟩
    ⟨some req, respond req⟩

/-- The entry the loop of `Create` stores for a field with a backend type. -/
def fieldEntry (f : Field) : mappingProperty :=
  match f.Type_ with
  | FieldType.TextField => [("type", MappingValue.str "string")]
  | FieldType.NumericField => [("type", MappingValue.str "double")]
  | FieldType.other _ => []

/-! ## Sample data for the concrete evaluations -/

/-- A document with the given id, score 1 and no property. -/
def plainDoc (id : String) : Document := ⟨id, 1, []⟩

/-- Five documents with distinct ids; the string bytes of their properties are
2 (`t`, `x`), 0, 6 (`k`, `hello`), 0 (the value is not a string) and 0. -/
def fiveDocs : List Document :=
  [⟨"a", 1, [("t", Value.str "x")]⟩, ⟨"b", 1, []⟩, ⟨"c", 1, [("k", Value.str "hello")]⟩,
    ⟨"d", 1, [("n", Value.num 7)]⟩, ⟨"e", 1, []⟩]

/-! ## Single steps of the drain loop -/

theorem normalised_properties (d : Document) :
    (if d.Score = 0 then { d with Score := epsilon } else d).Properties = d.Properties := by
  split <;> rfl

theorem sendAll_fits (conc : Int) (ds : List Document) :
    ∀ q, (1 ≤ conc ∨ q + ds.length ≤ queueCapacity) → sendAll conc ds q = (ds, true) := by
  induction ds with
  | nil => intro q _; rfl
  | cons d ds ih =>
    intro q h
    have h1 : 1 ≤ conc ∨ q < queueCapacity := by
      rcases h with h | h
      · exact Or.inl h
      · exact Or.inr (by simp only [List.length_cons] at h; omega)
    have h2 : 1 ≤ conc ∨ q + 1 + ds.length ≤ queueCapacity := by
      rcases h with h | h
      · exact Or.inl h
      · exact Or.inr (by simp only [List.length_cons] at h; omega)
    unfold sendAll
    rw [if_pos h1, ih (q + 1) h2]

theorem sendAll_workers (conc : Int) (h : 1 ≤ conc) (ds : List Document) (q : Nat) :
    sendAll conc ds q = (ds, true) :=
  sendAll_fits conc ds q (Or.inl h)

theorem sendAll_full (conc : Int) (hw : ¬ 1 ≤ conc) (ds : List Document) :
    ∀ q, q ≤ queueCapacity → queueCapacity < q + ds.length →
      sendAll conc ds q = (ds.take (queueCapacity - q), false) := by
  induction ds with
  | nil => intro q h1 h2; simp at h2; omega
  | cons d ds ih =>
    intro q h1 h2
    simp only [List.length_cons] at h2
    unfold sendAll
    by_cases hq : q < queueCapacity
    · rw [if_pos (Or.inr hq), ih (q + 1) (by omega) (by omega)]
      have e : queueCapacity - q = (queueCapacity - (q + 1)) + 1 := by omega
      rw [e, List.take_succ_cons]
    · rw [if_neg (by
        intro h
        rcases h with h | h
        · exact hw h
        · exact hq h)]
      have e : queueCapacity - q = 0 := by omega
      rw [e, List.take_zero]

theorem drain_step_inside (cl : Bool) (c : Nat) (conc L : Int) (d : Document)
    (rest : List Document) (st : LoopState) (hidx : st.i % c < st.docs.length)
    (h : (st.i + 1) % c ≠ 0) (hL : L ≤ 0 ∨ ((st.i + 1 : Nat) : Int) < L) :
    drain cl c conc L (d :: rest) st
      = drain cl c conc L rest ⟨st.docs.set (st.i % c) d, st.i + 1, st.n + 1,
          st.dt + stringBytes d.Properties, st.totalDt + stringBytes d.Properties, st.sent⟩ := by
  have hL2 : ¬ (0 < L ∧ L ≤ ((st.i + 1 : Nat) : Int)) := by omega
  simp only [drain, normalised_properties]
  rw [if_neg (by omega), if_neg h, if_neg hL2]

theorem drain_step_limit_inside (cl : Bool) (c : Nat) (conc L : Int) (d : Document)
    (rest : List Document) (st : LoopState) (hidx : st.i % c < st.docs.length)
    (h : (st.i + 1) % c ≠ 0) (hL : 0 < L ∧ L ≤ ((st.i + 1 : Nat) : Int)) :
    drain cl c conc L (d :: rest) st = ⟨Outcome.returned, [], rest⟩ := by
  simp only [drain]
  rw [if_neg (by omega), if_neg h, if_pos hL]

theorem drain_step_boundary (cl : Bool) (c : Nat) (conc L : Int) (d : Document)
    (rest : List Document) (st : LoopState) (hidx : st.i % c < st.docs.length)
    (hsend : 1 ≤ conc ∨ st.sent + st.docs.length ≤ queueCapacity)
    (h : (st.i + 1) % c = 0) :
    drain cl c conc L (d :: rest) st
      = if 0 < L ∧ L ≤ ((st.i + 1 : Nat) : Int) then
          ⟨Outcome.returned,
            [Event.push (st.docs.set (st.i % c) d),
              Event.report (st.i + 1) (st.n + 1) (st.dt + stringBytes d.Properties)
                (st.totalDt + stringBytes d.Properties)], rest⟩
        else
          ⟨(drain cl c conc L rest ⟨st.docs.set (st.i % c) d, st.i + 1, 0, 0,
              st.totalDt + stringBytes d.Properties, st.sent + st.docs.length⟩).outcome,
            Event.push (st.docs.set (st.i % c) d) ::
              Event.report (st.i + 1) (st.n + 1) (st.dt + stringBytes d.Properties)
                (st.totalDt + stringBytes d.Properties) ::
              (drain cl c conc L rest ⟨st.docs.set (st.i % c) d, st.i + 1, 0, 0,
                st.totalDt + stringBytes d.Properties, st.sent + st.docs.length⟩).trace,
            (drain cl c conc L rest ⟨st.docs.set (st.i % c) d, st.i + 1, 0, 0,
              st.totalDt + stringBytes d.Properties, st.sent + st.docs.length⟩).rest⟩ := by
  have hs : sendAll conc (st.docs.set (st.i % c) d) st.sent = (st.docs.set (st.i % c) d, true) :=
    sendAll_fits conc _ _ (by rw [List.length_set]; exact hsend)
  simp only [drain, normalised_properties, hs]
  rw [if_neg (by omega), if_pos h]
  simp

theorem drain_step_blocked (cl : Bool) (c : Nat) (conc L : Int) (d : Document)
    (rest : List Document) (st : LoopState) (hidx : st.i % c < st.docs.length)
    (hw : ¬ 1 ≤ conc) (h1 : st.sent ≤ queueCapacity)
    (h2 : queueCapacity < st.sent + st.docs.length) (h : (st.i + 1) % c = 0) :
    drain cl c conc L (d :: rest) st
      = ⟨Outcome.blocked,
          [Event.push ((st.docs.set (st.i % c) d).take (queueCapacity - st.sent))], rest⟩ := by
  have hs : sendAll conc (st.docs.set (st.i % c) d) st.sent
      = ((st.docs.set (st.i % c) d).take (queueCapacity - st.sent), false) :=
    sendAll_full conc hw _ _ h1 (by rw [List.length_set]; exact h2)
  simp only [drain, normalised_properties, hs]
  rw [if_neg (by omega), if_pos h]
  simp

/-! ## A run of steps inside a chunk, and a whole chunk -/

theorem set_after_filled (filled old : List Document) (o d : Document) :
    (filled ++ o :: old).set filled.length d = filled ++ d :: old := by
  induction filled with
  | nil => rfl
  | cons f fs ih => simp [List.set, ih]

theorem sourceBytes_append (xs ys : List Document) :
    sourceBytes (xs ++ ys) = sourceBytes xs + sourceBytes ys := by
  induction xs with
  | nil => simp [sourceBytes]
  | cons x xs ih => simp [sourceBytes, ih, Nat.add_assoc]

theorem drain_fill (cl : Bool) (c : Nat) (conc L : Int) (ds rest : List Document) :
    ∀ (filled old : List Document) (st : LoopState),
      st.docs = filled ++ old → filled.length = st.i % c → ds.length ≤ old.length →
      st.i % c + ds.length < c → (L ≤ 0 ∨ ((st.i + ds.length : Nat) : Int) < L) →
      drain cl c conc L (ds ++ rest) st
        = drain cl c conc L rest ⟨filled ++ (ds ++ old.drop ds.length), st.i + ds.length,
            st.n + ds.length, st.dt + sourceBytes ds, st.totalDt + sourceBytes ds, st.sent⟩ := by
  induction ds with
  | nil =>
    intro filled old st hdocs _ _ _ _
    cases st
    simp only [List.nil_append, List.length_nil, List.drop_zero, Nat.add_zero, sourceBytes]
    simp only at hdocs
    rw [hdocs]
  | cons d ds ih =>
    intro filled old st hdocs hf hlen hmod hL
    cases old with
    | nil => simp at hlen
    | cons o old =>
      simp only [List.length_cons] at hlen hmod hL
      have hc : 0 < c := by omega
      have hstep : (st.i + 1) % c = st.i % c + 1 := by
        rw [← Nat.mod_add_mod, Nat.mod_eq_of_lt (by omega)]
      have hidx : st.i % c < st.docs.length := by
        rw [hdocs, List.length_append, List.length_cons]; omega
      rw [List.cons_append, drain_step_inside cl c conc L d (ds ++ rest) st hidx (by omega)
        (by rcases hL with h | h; exact Or.inl h; exact Or.inr (by push_cast at h ⊢; omega))]
      have hset : st.docs.set (st.i % c) d = (filled ++ [d]) ++ old := by
        rw [hdocs, ← hf, set_after_filled]; simp
      rw [ih (filled ++ [d]) old _ hset (by simp [hf, hstep]) (by omega)
        (by simp only [hstep]; omega)
        (by rcases hL with h | h; exact Or.inl h; exact Or.inr (by push_cast at h ⊢; omega))]
      simp only [List.append_assoc, List.singleton_append, List.cons_append, List.length_cons,
        List.drop_succ_cons, sourceBytes]
      congr 2 <;> omega

/-- The state in which the last document of a chunk is read, reached from a
chunk boundary by reading all documents of the chunk `front ++ [last]` but the
last. -/
theorem drain_to_boundary (cl : Bool) (c : Nat) (conc L : Int)
    (front rest old Z : List Document) (last : Document) (st : LoopState)
    (hdocs : st.docs = old ++ Z) (hold : old.length = c) (hi : st.i % c = 0)
    (hds : front.length + 1 = c) (hL : L ≤ 0 ∨ ((st.i + c : Nat) : Int) ≤ L) :
    ∃ olast,
      drain cl c conc L (front ++ last :: rest) st
        = drain cl c conc L (last :: rest) ⟨front ++ olast :: Z, st.i + front.length,
            st.n + front.length, st.dt + sourceBytes front, st.totalDt + sourceBytes front,
            st.sent⟩ := by
  rcases List.eq_nil_or_concat old with hnil | ⟨ofront, olast, hocat⟩
  · subst hnil; simp at hold; omega
  rw [List.concat_eq_append] at hocat
  subst hocat
  simp only [List.length_append, List.length_singleton] at hold
  have hfill := drain_fill cl c conc L front (last :: rest) [] (ofront ++ [olast] ++ Z) st
    (by simpa using hdocs) (by simp [hi]) (by simp; omega) (by omega)
    (by rcases hL with h | h; exact Or.inl h; exact Or.inr (by push_cast at h ⊢; omega))
  have hdrop : (ofront ++ [olast] ++ Z).drop front.length = olast :: Z := by
    have : front.length = ofront.length := by omega
    rw [this, List.append_assoc, List.drop_left]; rfl
  refine ⟨olast, ?_⟩
  rw [hfill, hdrop]
  simp only [List.nil_append]

theorem drain_chunk (cl : Bool) (c : Nat) (conc L : Int) (ds rest old Z : List Document)
    (st : LoopState) (hdocs : st.docs = old ++ Z) (hold : old.length = c) (hi : st.i % c = 0)
    (hds : ds.length = c) (hc : 0 < c) (hL : L ≤ 0 ∨ ((st.i + c : Nat) : Int) ≤ L)
    (hsend : 1 ≤ conc ∨ st.sent + (c + Z.length) ≤ queueCapacity) :
    drain cl c conc L (ds ++ rest) st
      = if 0 < L ∧ L ≤ ((st.i + c : Nat) : Int) then
          ⟨Outcome.returned,
            [Event.push (ds ++ Z),
              Event.report (st.i + c) (st.n + c) (st.dt + sourceBytes ds)
                (st.totalDt + sourceBytes ds)], rest⟩
        else
          ⟨(drain cl c conc L rest ⟨ds ++ Z, st.i + c, 0, 0, st.totalDt + sourceBytes ds,
              st.sent + (c + Z.length)⟩).outcome,
            Event.push (ds ++ Z) ::
              Event.report (st.i + c) (st.n + c) (st.dt + sourceBytes ds)
                (st.totalDt + sourceBytes ds) ::
              (drain cl c conc L rest ⟨ds ++ Z, st.i + c, 0, 0, st.totalDt + sourceBytes ds,
                st.sent + (c + Z.length)⟩).trace,
            (drain cl c conc L rest ⟨ds ++ Z, st.i + c, 0, 0, st.totalDt + sourceBytes ds,
              st.sent + (c + Z.length)⟩).rest⟩ := by
  rcases List.eq_nil_or_concat ds with hnil | ⟨front, last, hcat⟩
  · subst hnil; simp at hds; omega
  rw [List.concat_eq_append] at hcat
  subst hcat
  simp only [List.length_append, List.length_singleton] at hds
  obtain ⟨olast, hrun⟩ := drain_to_boundary cl c conc L front rest old Z last st hdocs hold hi
    hds hL
  have hmod : (st.i + front.length + 1) % c = 0 := by
    have : st.i + front.length + 1 = st.i + c := by omega
    rw [this, Nat.add_mod, hi, Nat.mod_self]; simp
  have hmod2 : (st.i + front.length) % c = front.length := by
    rw [Nat.add_mod, hi, Nat.zero_add, Nat.mod_mod, Nat.mod_eq_of_lt (by omega)]
  rw [List.append_assoc, List.singleton_append, hrun,
    drain_step_boundary cl c conc L last rest _
      (by simp only [hmod2, List.length_append, List.length_cons]; omega)
      (by
        rcases hsend with h | h
        · exact Or.inl h
        · exact Or.inr (by simp only [List.length_append, List.length_cons]; omega))
      hmod]
  simp only [hmod2, set_after_filled, List.length_append, List.length_cons,
    sourceBytes_append, sourceBytes, List.append_assoc, List.singleton_append]
  have e1 : st.i + front.length + 1 = st.i + c := by omega
  have e2 : st.n + front.length + 1 = st.n + c := by omega
  have e3 : st.sent + (front.length + (Z.length + 1)) = st.sent + (c + Z.length) := by omega
  simp only [e1, e2, e3, Nat.add_zero, Nat.add_assoc]

theorem drain_chunk_blocked (cl : Bool) (c : Nat) (conc L : Int) (ds rest old Z : List Document)
    (st : LoopState) (hdocs : st.docs = old ++ Z) (hold : old.length = c) (hi : st.i % c = 0)
    (hds : ds.length = c) (hc : 0 < c) (hL : L ≤ 0 ∨ ((st.i + c : Nat) : Int) ≤ L)
    (hw : ¬ 1 ≤ conc) (h1 : st.sent ≤ queueCapacity)
    (h2 : queueCapacity < st.sent + (c + Z.length)) :
    drain cl c conc L (ds ++ rest) st
      = ⟨Outcome.blocked, [Event.push ((ds ++ Z).take (queueCapacity - st.sent))], rest⟩ := by
  rcases List.eq_nil_or_concat ds with hnil | ⟨front, last, hcat⟩
  · subst hnil; simp at hds; omega
  rw [List.concat_eq_append] at hcat
  subst hcat
  simp only [List.length_append, List.length_singleton] at hds
  obtain ⟨olast, hrun⟩ := drain_to_boundary cl c conc L front rest old Z last st hdocs hold hi
    hds hL
  have hmod : (st.i + front.length + 1) % c = 0 := by
    have : st.i + front.length + 1 = st.i + c := by omega
    rw [this, Nat.add_mod, hi, Nat.mod_self]; simp
  have hmod2 : (st.i + front.length) % c = front.length := by
    rw [Nat.add_mod, hi, Nat.zero_add, Nat.mod_mod, Nat.mod_eq_of_lt (by omega)]
  rw [List.append_assoc, List.singleton_append, hrun,
    drain_step_blocked cl c conc L last rest
      ⟨front ++ olast :: Z, st.i + front.length, st.n + front.length,
        st.dt + sourceBytes front, st.totalDt + sourceBytes front, st.sent⟩
      (by simp only [hmod2, List.length_append, List.length_cons]; omega) hw h1
      (by simp only [List.length_append, List.length_cons]; omega) hmod]
  simp only [hmod2, set_after_filled, List.append_assoc, List.singleton_append]


/-! ## Whole runs from an aligned state -/

theorem aligned_initial (c : Nat) : Aligned c (initialState c) := by
  refine ⟨⟨List.replicate c zeroDoc, ?_, by simp⟩, by simp [initialState], rfl, rfl⟩
  simp only [initialState, Nat.mul_two, List.replicate_add]

theorem sourceBytes_take_add (src : List Document) (a b : Nat) :
    sourceBytes (src.take (a + b)) = sourceBytes (src.take a) + sourceBytes ((src.drop a).take b) := by
  rw [List.take_add, sourceBytes_append]

theorem drain_chunks (cl : Bool) (c : Nat) (conc L : Int) (hc : 0 < c) :
    ∀ (k : Nat) (src : List Document) (st : LoopState), Aligned c st → k * c ≤ src.length →
      (L ≤ 0 ∨ ((st.i + k * c : Nat) : Int) < L) →
      (1 ≤ conc ∨ st.sent + k * (c + c) ≤ queueCapacity) →
      ∃ st1, Aligned c st1 ∧ st1.i = st.i + k * c ∧
        st1.totalDt = st.totalDt + sourceBytes (src.take (k * c)) ∧
        st1.sent = st.sent + k * (c + c) ∧
        drain cl c conc L src st
          = ⟨(drain cl c conc L (src.drop (k * c)) st1).outcome,
              chunkTrace c k st.i st.totalDt src ++
                (drain cl c conc L (src.drop (k * c)) st1).trace,
              (drain cl c conc L (src.drop (k * c)) st1).rest⟩ := by
  intro k
  induction k with
  | zero =>
    intro src st hst _ _ _
    exact ⟨st, hst, by simp, by simp [sourceBytes], by simp, by simp [chunkTrace]⟩
  | succ k ih =>
    intro src st hst hlen hL hsend
    obtain ⟨⟨old, hdocs, hold⟩, hi, hn, hdt⟩ := hst
    have hsplit : (k + 1) * c = c + k * c := by rw [Nat.succ_mul, Nat.add_comm]
    have hsplit2 : (k + 1) * (c + c) = (c + c) + k * (c + c) := by
      rw [Nat.succ_mul, Nat.add_comm]
    rw [hsplit] at hL hlen
    rw [hsplit2] at hsend
    rw [hsplit, hsplit2]
    have hkc : (0 : Int) ≤ ((k * c : Nat) : Int) := Int.ofNat_nonneg _
    have htake : (src.take c).length = c := by
      rw [List.length_take]; omega
    have hstep := drain_chunk cl c conc L (src.take c) (src.drop c) old
      (List.replicate c zeroDoc) st hdocs hold hi htake hc
      (by rcases hL with h | h; exact Or.inl h; exact Or.inr (by push_cast at h hkc ⊢; omega))
      (by
        rcases hsend with h | h
        · exact Or.inl h
        · exact Or.inr (by rw [List.length_replicate]; omega))
    rw [List.take_append_drop, if_neg (by
      rcases hL with h | h
      · omega
      · push_cast at h hkc ⊢; omega)] at hstep
    obtain ⟨st1, hal, hi1, hT1, hs1, hrun⟩ := ih (src.drop c)
      ⟨src.take c ++ List.replicate c zeroDoc, st.i + c, 0, 0,
        st.totalDt + sourceBytes (src.take c), st.sent + (c + (List.replicate c zeroDoc).length)⟩
      ⟨⟨src.take c, rfl, htake⟩, by
        show (st.i + c) % c = 0
        rw [Nat.add_mod, hi, Nat.mod_self]; rfl, rfl, rfl⟩
      (by rw [List.length_drop]; omega)
      (by rcases hL with h | h; exact Or.inl h; exact Or.inr (by
        show (((st.i + c) + k * c : Nat) : Int) < L
        push_cast at h ⊢; omega))
      (by
        rcases hsend with h | h
        · exact Or.inl h
        · exact Or.inr (by
            show st.sent + (c + (List.replicate c zeroDoc).length) + k * (c + c) ≤ queueCapacity
            rw [List.length_replicate]; omega))
    refine ⟨st1, hal, ?_, ?_, ?_, ?_⟩
    · rw [hi1]; simp only []; omega
    · rw [hT1, sourceBytes_take_add]; simp only []; omega
    · rw [hs1]; simp only [List.length_replicate]; omega
    · rw [hstep, hrun, hn, hdt]
      simp only [List.drop_drop, chunkTrace, List.cons_append, Nat.zero_add,
        Nat.add_comm (k * c) c]

theorem chunkTrace_succ (c : Nat) :
    ∀ (k i T : Nat) (src : List Document),
      chunkTrace c (k + 1) i T src
        = chunkTrace c k i T src ++
            [Event.push ((src.drop (k * c)).take c ++ List.replicate c zeroDoc),
              Event.report (i + (k + 1) * c) c (sourceBytes ((src.drop (k * c)).take c))
                (T + sourceBytes (src.take ((k + 1) * c)))] := by
  intro k
  induction k with
  | zero => intro i T src; simp [chunkTrace]
  | succ k ih =>
    intro i T src
    have e1 : (k + 1) * c = c + k * c := by rw [Nat.succ_mul, Nat.add_comm]
    have e2 : (k + 1 + 1) * c = c + (k + 1) * c := by rw [Nat.succ_mul, Nat.add_comm]
    rw [chunkTrace, ih (i + c) (T + sourceBytes (src.take c)) (src.drop c)]
    conv_rhs => rw [chunkTrace]
    simp only [List.cons_append, List.drop_drop, e2, sourceBytes_take_add src c ((k + 1) * c),
      Nat.add_assoc]
    rw [e1]

/-- The source runs dry before the limit is reached and the queue never fills:
all complete chunks are dispatched; then the run flushes the trailing chunk and
returns when the reader closes its channel, and waits for ever when it does
not. -/
theorem drain_exhausted (cl : Bool) (c : Nat) (conc L : Int) (hc : 0 < c)
    (src : List Document) (hL : L ≤ 0 ∨ ((src.length : Nat) : Int) < L)
    (hsend : 1 ≤ conc ∨ src.length / c * (c + c) ≤ queueCapacity) :
    drain cl c conc L src (initialState c)
      = if cl = false then
          ⟨Outcome.waiting, chunkTrace c (src.length / c) 0 0 src, []⟩
        else
          ⟨Outcome.returned,
            chunkTrace c (src.length / c) 0 0 src ++
              (if src.length % c ≠ 0 then [Event.index (src.drop (src.length / c * c))] else []),
            []⟩ := by
  have hk : src.length / c * c ≤ src.length := Nat.div_mul_le_self _ _
  have hr : src.length % c < c := Nat.mod_lt _ hc
  have hdm : src.length / c * c + src.length % c = src.length := by
    rw [Nat.mul_comm]; exact Nat.div_add_mod _ _
  obtain ⟨st1, ⟨⟨old, hdocs, hold⟩, hi0, _, _⟩, hi1, _, _, hrun⟩ :=
    drain_chunks cl c conc L hc (src.length / c) src (initialState c) (aligned_initial c) hk
      (by rcases hL with h | h; exact Or.inl h; exact Or.inr (by
        show ((0 + src.length / c * c : Nat) : Int) < L
        omega))
      (by
        rcases hsend with h | h
        · exact Or.inl h
        · exact Or.inr (by
            show 0 + src.length / c * (c + c) ≤ queueCapacity
            omega))
  have htl : (src.drop (src.length / c * c)).length = src.length % c := by
    rw [List.length_drop]; omega
  have hfill := drain_fill cl c conc L (src.drop (src.length / c * c)) [] [] st1.docs st1
    (by simp) (by simp [hi0]) (by rw [htl, hdocs]; simp; omega) (by omega)
    (by rcases hL with h | h; exact Or.inl h; exact Or.inr (by
      rw [hi1, htl]
      show ((0 + src.length / c * c + src.length % c : Nat) : Int) < L
      omega))
  rw [List.append_nil] at hfill
  have hmod : (st1.i + src.length % c) % c = src.length % c := by
    rw [Nat.add_mod, hi0, Nat.zero_add, Nat.mod_mod, Nat.mod_mod]
  rw [hrun, hfill]
  simp only [drain, htl, hmod, List.nil_append, initialState]
  cases cl with
  | false => simp
  | true =>
    by_cases h0 : src.length % c = 0
    · simp [h0]
    · simp only [h0, ne_eq, not_false_eq_true, if_true, Bool.true_eq_false, if_false]
      rw [← htl, List.take_left]

/-- The limit is reached and the queue never fills: the chunks completed before
the limit are dispatched and the run returns, without a flush. -/
theorem drain_limited (cl : Bool) (c : Nat) (conc : Int) (hc : 0 < c) (l : Nat) (hl : 0 < l)
    (src : List Document) (hlen : l ≤ src.length)
    (hsend : 1 ≤ conc ∨ l / c * (c + c) ≤ queueCapacity) :
    drain cl c conc (l : Int) src (initialState c)
      = ⟨Outcome.returned, chunkTrace c (l / c) 0 0 src, src.drop l⟩ := by
  have hdm : l / c * c + l % c = l := by
    rw [Nat.mul_comm]; exact Nat.div_add_mod _ _
  have hr : l % c < c := Nat.mod_lt _ hc
  by_cases h0 : l % c = 0
  · -- the limit is reached at a chunk boundary
    obtain ⟨k, hk⟩ : ∃ k, l / c = k + 1 := by
      cases hq : l / c with
      | zero => rw [hq] at hdm; omega
      | succ k => exact ⟨k, rfl⟩
    have e1 : (k + 1) * c = k * c + c := Nat.succ_mul k c
    have e1s : (k + 1) * (c + c) = k * (c + c) + (c + c) := Nat.succ_mul k (c + c)
    rw [hk, e1] at hdm
    rw [hk, e1s] at hsend
    obtain ⟨st1, ⟨⟨old, hdocs, hold⟩, hi0, hn, hdt⟩, hi1, hT1, hs1, hrun⟩ :=
      drain_chunks cl c conc (l : Int) hc k src (initialState c) (aligned_initial c) (by omega)
        (Or.inr (by
          show ((0 + k * c : Nat) : Int) < (l : Int)
          omega))
        (by
          rcases hsend with h | h
          · exact Or.inl h
          · exact Or.inr (by
              show 0 + k * (c + c) ≤ queueCapacity
              omega))
    have hi1 : st1.i = k * c := by rw [hi1]; simp [initialState]
    have hs1 : st1.sent = k * (c + c) := by rw [hs1]; simp [initialState]
    have hT1 : st1.totalDt = sourceBytes (src.take (k * c)) := by rw [hT1]; simp [initialState]
    have htake : ((src.drop (k * c)).take c).length = c := by
      rw [List.length_take, List.length_drop]; omega
    have hstep := drain_chunk cl c conc (l : Int) ((src.drop (k * c)).take c)
      ((src.drop (k * c)).drop c) old (List.replicate c zeroDoc) st1 hdocs hold hi0 htake hc
      (Or.inr (by rw [hi1]; omega))
      (by
        rcases hsend with h | h
        · exact Or.inl h
        · exact Or.inr (by rw [hs1, List.length_replicate]; omega))
    rw [List.take_append_drop, if_pos (by rw [hi1]; omega)] at hstep
    rw [hrun, hstep, hk, chunkTrace_succ, hn, hdt, hi1, hT1, List.drop_drop, e1,
      sourceBytes_take_add]
    simp only [initialState, Nat.zero_add]
    have e3 : k * c + c = l := by omega
    rw [e3]
  · -- the limit is reached inside a chunk
    obtain ⟨st1, ⟨⟨old, hdocs, hold⟩, hi0, hn, hdt⟩, hi1, hT1, _, hrun⟩ :=
      drain_chunks cl c conc (l : Int) hc (l / c) src (initialState c) (aligned_initial c)
        (by omega)
        (Or.inr (by
          show ((0 + l / c * c : Nat) : Int) < (l : Int)
          omega))
        (by
          rcases hsend with h | h
          · exact Or.inl h
          · exact Or.inr (by
              show 0 + l / c * (c + c) ≤ queueCapacity
              omega))
    have hi1 : st1.i = l / c * c := by rw [hi1]; simp [initialState]
    have htl : l % c ≤ (src.drop (l / c * c)).length := by
      rw [List.length_drop]; omega
    have hsplit : src.drop (l / c * c)
        = (src.drop (l / c * c)).take (l % c - 1) ++ (src.drop (l / c * c)).drop (l % c - 1) :=
      (List.take_append_drop _ _).symm
    cases hd : (src.drop (l / c * c)).drop (l % c - 1) with
    | nil =>
      have := congrArg List.length hd
      rw [List.length_drop] at this
      simp at this
      omega
    | cons d rest =>
      have hrest : rest = src.drop l := by
        have h1 : rest = ((src.drop (l / c * c)).drop (l % c - 1)).drop 1 := by rw [hd]; rfl
        rw [h1, List.drop_drop, List.drop_drop]
        congr 1; omega
      have hflen : ((src.drop (l / c * c)).take (l % c - 1)).length = l % c - 1 := by
        rw [List.length_take]; omega
      have hfill := drain_fill cl c conc (l : Int) ((src.drop (l / c * c)).take (l % c - 1))
        (d :: rest) [] st1.docs st1 (by simp) (by simp [hi0])
        (by rw [hflen, hdocs]; simp; omega) (by omega)
        (Or.inr (by rw [hflen, hi1]; omega))
      have hmodl : (l / c * c + (l % c - 1)) % c = l % c - 1 := by
        rw [Nat.add_mod, Nat.mul_mod_left, Nat.zero_add, Nat.mod_mod,
          Nat.mod_eq_of_lt (by omega)]
      rw [hd] at hsplit
      rw [hrun, hsplit, hfill, drain_step_limit_inside, hrest]
      · simp [initialState]
      · show (st1.i + ((src.drop (l / c * c)).take (l % c - 1)).length) % c
          < ([] ++ ((src.drop (l / c * c)).take (l % c - 1) ++
              st1.docs.drop ((src.drop (l / c * c)).take (l % c - 1)).length)).length
        rw [hflen, hi1, hmodl, hdocs]
        simp only [List.nil_append, List.length_append, List.length_drop, List.length_take,
          List.length_replicate, hold]
        omega
      · show (st1.i + ((src.drop (l / c * c)).take (l % c - 1)).length + 1) % c ≠ 0
        rw [hflen, hi1]
        have : l / c * c + (l % c - 1) + 1 = l := by omega
        rw [this]; exact h0
      · show 0 < (l : Int) ∧ (l : Int)
          ≤ ((st1.i + ((src.drop (l / c * c)).take (l % c - 1)).length + 1 : Nat) : Int)
        rw [hflen, hi1]
        omega

/-- No worker receives and the queue fills at dispatch number `B + 1`, where
`B` is the number of whole dispatches of `2c` documents the queue can hold: the
run blocks there, after `B` complete dispatches and reports. -/
theorem drain_blocked (cl : Bool) (c : Nat) (conc L : Int) (hc : 0 < c) (hw : ¬ 1 ≤ conc)
    (src : List Document) (B : Nat) (hB : B = queueCapacity / (c + c))
    (hlen : (B + 1) * c ≤ src.length) (hL : L ≤ 0 ∨ (((B + 1) * c : Nat) : Int) ≤ L) :
    drain cl c conc L src (initialState c)
      = ⟨Outcome.blocked,
          chunkTrace c B 0 0 src ++
            [Event.push (((src.drop (B * c)).take c ++ List.replicate c zeroDoc).take
              (queueCapacity - B * (c + c)))],
          src.drop ((B + 1) * c)⟩ := by
  have e1 : (B + 1) * c = B * c + c := Nat.succ_mul B c
  have hcc : 0 < c + c := by omega
  have hfit : B * (c + c) ≤ queueCapacity := by
    rw [hB]; exact Nat.div_mul_le_self _ _
  have hover : queueCapacity < B * (c + c) + (c + c) := by
    have h2 : queueCapacity < (queueCapacity / (c + c) + 1) * (c + c) :=
      Nat.lt_mul_of_div_lt (Nat.lt_succ_self _) hcc
    rw [← hB, Nat.succ_mul] at h2
    exact h2
  rw [e1] at hlen hL
  have hkc : (0 : Int) ≤ ((B * c : Nat) : Int) := Int.ofNat_nonneg _
  obtain ⟨st1, ⟨⟨old, hdocs, hold⟩, hi0, hn, hdt⟩, hi1, hT1, hs1, hrun⟩ :=
    drain_chunks cl c conc L hc B src (initialState c) (aligned_initial c) (by omega)
      (by
        rcases hL with h | h
        · exact Or.inl h
        · exact Or.inr (by
            show ((0 + B * c : Nat) : Int) < L
            push_cast at h hkc ⊢; omega))
      (Or.inr (by
        show 0 + B * (c + c) ≤ queueCapacity
        omega))
  have hi1 : st1.i = B * c := by rw [hi1]; simp [initialState]
  have hs1 : st1.sent = B * (c + c) := by rw [hs1]; simp [initialState]
  have htake : ((src.drop (B * c)).take c).length = c := by
    rw [List.length_take, List.length_drop]; omega
  have hstep := drain_chunk_blocked cl c conc L ((src.drop (B * c)).take c)
    ((src.drop (B * c)).drop c) old (List.replicate c zeroDoc) st1 hdocs hold hi0 htake hc
    (by
      rcases hL with h | h
      · exact Or.inl h
      · exact Or.inr (by rw [hi1]; push_cast at h ⊢; omega))
    hw (by rw [hs1]; exact hfit) (by rw [hs1, List.length_replicate]; exact hover)
  rw [List.take_append_drop] at hstep
  rw [hrun, hstep, hs1, List.drop_drop, e1]
  simp only [initialState, Nat.add_comm c (B * c)]

/-! ## Closed forms of the runs of `IngestDocuments` -/

theorem wrapInt_small (x : Int) (h0 : 0 ≤ x) (h1 : x < 2 ^ 63) : wrapInt x = x := by
  unfold wrapInt
  omega

theorem chunkOf_pos (iopts : IngestOptions) (hC : 0 ≤ iopts.ChunkSize) : 0 < chunkOf iopts := by
  unfold chunkOf
  split <;> omega

theorem chunkOf_cast (iopts : IngestOptions) (hC : 0 ≤ iopts.ChunkSize) :
    ((chunkOf iopts : Nat) : Int) = if iopts.ChunkSize = 0 then 1000 else iopts.ChunkSize := by
  unfold chunkOf
  split <;> omega

theorem IngestDocuments_eq_drain (room : Int) (ch : List Document) (cl : Bool) (iopts : IngestOptions)
    (hC : 0 ≤ iopts.ChunkSize) (hM : ((chunkOf iopts : Nat) : Int) * 2 ≤ min maxSliceLen room) :
    IngestDocuments room ch cl iopts
      = drain cl (chunkOf iopts) iopts.Concurrency iopts.Limit ch
          (initialState (chunkOf iopts)) := by
  have hcast := chunkOf_cast iopts hC
  simp only [maxSliceLen] at hM
  have hw : wrapInt ((if iopts.ChunkSize = 0 then (1000 : Int) else iopts.ChunkSize) * 2)
      = (((chunkOf iopts * 2 : Nat)) : Int) := by
    rw [wrapInt_small _ (by split <;> omega) (by split <;> omega)]
    push_cast
    rw [hcast]
  unfold IngestDocuments
  simp only [hw, maxSliceLen, Int.toNat_ofNat]
  rw [if_neg (by push_cast; rw [hcast]; split <;> omega)]
  rfl

/-- A chunk size whose double is beyond what `make` accepts or the machine has
room for: the run dies before it reads anything. -/
theorem ingest_panics (room : Int) (ch : List Document) (cl : Bool) (iopts : IngestOptions)
    (hC : 0 ≤ iopts.ChunkSize) (hI : iopts.ChunkSize < 2 ^ 63)
    (hM : min maxSliceLen room < ((chunkOf iopts : Nat) : Int) * 2) :
    IngestDocuments room ch cl iopts = ⟨Outcome.panicked, [], ch⟩ := by
  have hcast := chunkOf_cast iopts hC
  rw [hcast] at hM
  unfold IngestDocuments
  simp only []
  rw [if_pos]
  by_cases hbig : (if iopts.ChunkSize = 0 then (1000 : Int) else iopts.ChunkSize) * 2 < 2 ^ 63
  · right
    rw [wrapInt_small _ (by split <;> omega) hbig]
    exact hM
  · left
    unfold wrapInt
    split at hbig <;> split <;> omega

theorem ingest_unlimited (room : Int) (ch : List Document) (cl : Bool) (iopts : IngestOptions)
    (hC : 0 ≤ iopts.ChunkSize) (hM : ((chunkOf iopts : Nat) : Int) * 2 ≤ min maxSliceLen room)
    (hL : iopts.Limit ≤ 0 ∨ (ch.length : Int) < iopts.Limit)
    (hsend : 1 ≤ iopts.Concurrency ∨
      ch.length / chunkOf iopts * (chunkOf iopts + chunkOf iopts) ≤ queueCapacity) :
    IngestDocuments room ch cl iopts
      = if cl = false then
          ⟨Outcome.waiting, chunkTrace (chunkOf iopts) (ch.length / chunkOf iopts) 0 0 ch, []⟩
        else
          ⟨Outcome.returned,
            chunkTrace (chunkOf iopts) (ch.length / chunkOf iopts) 0 0 ch ++
              (if ch.length % chunkOf iopts ≠ 0 then
                [Event.index (ch.drop (ch.length / chunkOf iopts * chunkOf iopts))] else []),
            []⟩ := by
  rw [IngestDocuments_eq_drain room ch cl iopts hC hM]
  exact drain_exhausted cl _ _ _ (chunkOf_pos iopts hC) ch hL hsend

theorem ingest_limited (room : Int) (ch : List Document) (cl : Bool) (iopts : IngestOptions)
    (hC : 0 ≤ iopts.ChunkSize) (hM : ((chunkOf iopts : Nat) : Int) * 2 ≤ min maxSliceLen room)
    (l : Nat) (hLim : iopts.Limit = (l : Int)) (hl : 0 < l) (hlen : l ≤ ch.length)
    (hsend : 1 ≤ iopts.Concurrency ∨
      l / chunkOf iopts * (chunkOf iopts + chunkOf iopts) ≤ queueCapacity) :
    IngestDocuments room ch cl iopts
      = ⟨Outcome.returned, chunkTrace (chunkOf iopts) (l / chunkOf iopts) 0 0 ch, ch.drop l⟩ := by
  rw [IngestDocuments_eq_drain room ch cl iopts hC hM, hLim]
  exact drain_limited cl _ _ (chunkOf_pos iopts hC) l hl ch hlen hsend

theorem intake_le (ch : List Document) (iopts : IngestOptions) : intake ch iopts ≤ ch.length := by
  unfold intake
  split <;> omega

theorem ingest_blocked (room : Int) (ch : List Document) (cl : Bool) (iopts : IngestOptions)
    (hC : 0 ≤ iopts.ChunkSize) (hM : ((chunkOf iopts : Nat) : Int) * 2 ≤ min maxSliceLen room)
    (hw : ¬ 1 ≤ iopts.Concurrency)
    (hover : queueCapacity
      < intake ch iopts / chunkOf iopts * (chunkOf iopts + chunkOf iopts)) :
    IngestDocuments room ch cl iopts
      = ⟨Outcome.blocked,
          chunkTrace (chunkOf iopts) (queueCapacity / (chunkOf iopts + chunkOf iopts)) 0 0 ch ++
            [Event.push
              (((ch.drop (queueCapacity / (chunkOf iopts + chunkOf iopts) * chunkOf iopts)).take
                  (chunkOf iopts) ++ List.replicate (chunkOf iopts) zeroDoc).take
                (queueCapacity -
                  queueCapacity / (chunkOf iopts + chunkOf iopts) *
                    (chunkOf iopts + chunkOf iopts)))],
          ch.drop ((queueCapacity / (chunkOf iopts + chunkOf iopts) + 1) * chunkOf iopts)⟩ := by
  have hc := chunkOf_pos iopts hC
  have hcc : 0 < chunkOf iopts + chunkOf iopts := by omega
  have hlt : queueCapacity / (chunkOf iopts + chunkOf iopts) < intake ch iopts / chunkOf iopts := by
    by_contra hcon
    have h1 : intake ch iopts / chunkOf iopts * (chunkOf iopts + chunkOf iopts)
        ≤ queueCapacity / (chunkOf iopts + chunkOf iopts) * (chunkOf iopts + chunkOf iopts) :=
      Nat.mul_le_mul_right _ (Nat.le_of_not_lt hcon)
    have h2 := Nat.div_mul_le_self queueCapacity (chunkOf iopts + chunkOf iopts)
    omega
  have hreach : (queueCapacity / (chunkOf iopts + chunkOf iopts) + 1) * chunkOf iopts
      ≤ intake ch iopts :=
    Nat.le_trans (Nat.mul_le_mul_right _ hlt) (Nat.div_mul_le_self _ _)
  rw [IngestDocuments_eq_drain room ch cl iopts hC hM]
  refine drain_blocked cl _ _ _ hc hw ch _ rfl (Nat.le_trans hreach (intake_le ch iopts)) ?_
  unfold intake at hreach
  by_cases hact : 0 < iopts.Limit ∧ iopts.Limit ≤ (ch.length : Int)
  · rw [if_pos hact] at hreach
    exact Or.inr (by omega)
  · rw [if_neg hact] at hreach
    by_cases hpos : iopts.Limit ≤ 0
    · exact Or.inl hpos
    · exact Or.inr (by omega)

/-! ## Observations on the closed forms -/

theorem dispatches_append (xs ys : List Event) :
    dispatches (xs ++ ys) = dispatches xs ++ dispatches ys := by
  induction xs with
  | nil => rfl
  | cons e es ih => cases e <;> simp [dispatches, ih]

theorem reports_append (xs ys : List Event) : reports (xs ++ ys) = reports xs ++ reports ys := by
  induction xs with
  | nil => rfl
  | cons e es ih => cases e <;> simp [reports, ih]

theorem flushCalls_append (xs ys : List Event) :
    flushCalls (xs ++ ys) = flushCalls xs ++ flushCalls ys := by
  induction xs with
  | nil => rfl
  | cons e es ih => cases e <;> simp [flushCalls, ih]

theorem pushed_append (xs ys : List Event) : pushed (xs ++ ys) = pushed xs ++ pushed ys := by
  induction xs with
  | nil => rfl
  | cons e es ih => cases e <;> simp [pushed, ih]

theorem dispatches_chunkTrace (c k i T : Nat) (src : List Document) :
    dispatches (chunkTrace c k i T src)
      = (List.range k).map (fun j => (src.drop (j * c)).take c ++ List.replicate c zeroDoc) := by
  induction k with
  | zero => rfl
  | succ k ih =>
    rw [chunkTrace_succ, dispatches_append, ih, List.range_succ, List.map_append]
    rfl

theorem reports_chunkTrace (c k i T : Nat) (src : List Document) :
    reports (chunkTrace c k i T src)
      = (List.range k).map (fun j =>
          (⟨i + (j + 1) * c, c, sourceBytes ((src.drop (j * c)).take c),
            T + sourceBytes (src.take ((j + 1) * c))⟩ : Report)) := by
  induction k with
  | zero => rfl
  | succ k ih =>
    rw [chunkTrace_succ, reports_append, ih, List.range_succ, List.map_append]
    rfl

theorem flushCalls_chunkTrace (c k i T : Nat) (src : List Document) :
    flushCalls (chunkTrace c k i T src) = [] := by
  induction k with
  | zero => rfl
  | succ k ih =>
    rw [chunkTrace_succ, flushCalls_append, ih]
    rfl

theorem filter_placeholders (c : Nat) :
    (List.replicate c zeroDoc).filter (fun d => d.Id ≠ "") = [] := by
  rw [List.filter_eq_nil_iff]
  intro d hd
  rw [List.eq_of_mem_replicate hd]
  simp [zeroDoc]

theorem pushed_chunkTrace (c k i T : Nat) (src : List Document) :
    (pushed (chunkTrace c k i T src)).filter (fun d => d.Id ≠ "")
      = (src.take (k * c)).filter (fun d => d.Id ≠ "") := by
  induction k with
  | zero => simp [chunkTrace, pushed]
  | succ k ih =>
    rw [chunkTrace_succ, pushed_append, List.filter_append, ih, Nat.succ_mul, List.take_add,
      List.filter_append]
    simp only [pushed, List.append_nil, List.filter_append, filter_placeholders]

theorem sourceBytes_take_mono (src : List Document) (a b : Nat) (h : a ≤ b) :
    sourceBytes (src.take a) ≤ sourceBytes (src.take b) := by
  obtain ⟨d, rfl⟩ := Nat.exists_eq_add_of_le h
  rw [sourceBytes_take_add]
  exact Nat.le_add_right _ _

/-- Chunk sizes below zero.  The product `chunk*2` is negative and `make`
panics, except at the far end of the range of a Go `int`, where it wraps to a
small length: with `ChunkSize = -2^63 + 1` the buffer has two slots, a source of
one document is flushed as a trailing chunk, and the third document of a longer
source is stored out of range. -/
theorem negative_chunk_sizes :
    IngestDocuments maxSliceLen [plainDoc "a"] true ⟨-5, 1, 0⟩ = ⟨Outcome.panicked, [], [plainDoc "a"]⟩ ∧
    IngestDocuments maxSliceLen [plainDoc "a"] true ⟨-2 ^ 63 + 1, 1, 0⟩
      = ⟨Outcome.returned, [Event.index [plainDoc "a"]], []⟩ ∧
    IngestDocuments maxSliceLen [plainDoc "a", plainDoc "b", plainDoc "c", plainDoc "d"] true
        ⟨-2 ^ 63 + 1, 1, 0⟩
      = ⟨Outcome.panicked, [], [plainDoc "d"]⟩ := by
  decide

/-! ## Every run with a buffer that can be made has one of three forms -/

/-- A run whose staging buffer can be made is blocked on the full queue, or
reads its whole intake: up to the end of the source, or up to the limit. -/
theorem ingest_cases (room : Int) (ch : List Document) (cl : Bool) (iopts : IngestOptions)
    (hC : 0 ≤ iopts.ChunkSize) (hM : ((chunkOf iopts : Nat) : Int) * 2 ≤ min maxSliceLen room) :
    (¬ 1 ≤ iopts.Concurrency ∧
      queueCapacity < intake ch iopts / chunkOf iopts * (chunkOf iopts + chunkOf iopts) ∧
      (queueCapacity / (chunkOf iopts + chunkOf iopts) + 1) * chunkOf iopts ≤ ch.length ∧
      IngestDocuments room ch cl iopts
        = ⟨Outcome.blocked,
            chunkTrace (chunkOf iopts) (queueCapacity / (chunkOf iopts + chunkOf iopts)) 0 0 ch ++
              [Event.push
                (((ch.drop (queueCapacity / (chunkOf iopts + chunkOf iopts) * chunkOf iopts)).take
                    (chunkOf iopts) ++ List.replicate (chunkOf iopts) zeroDoc).take
                  (queueCapacity -
                    queueCapacity / (chunkOf iopts + chunkOf iopts) *
                      (chunkOf iopts + chunkOf iopts)))],
            ch.drop ((queueCapacity / (chunkOf iopts + chunkOf iopts) + 1) * chunkOf iopts)⟩) ∨
    ((1 ≤ iopts.Concurrency ∨
        intake ch iopts / chunkOf iopts * (chunkOf iopts + chunkOf iopts) ≤ queueCapacity) ∧
      (iopts.Limit ≤ 0 ∨ (ch.length : Int) < iopts.Limit) ∧ intake ch iopts = ch.length ∧
      IngestDocuments room ch cl iopts
        = if cl = false then
            ⟨Outcome.waiting,
              chunkTrace (chunkOf iopts) (intake ch iopts / chunkOf iopts) 0 0 ch, []⟩
          else
            ⟨Outcome.returned,
              chunkTrace (chunkOf iopts) (intake ch iopts / chunkOf iopts) 0 0 ch ++
                (if ch.length % chunkOf iopts ≠ 0 then
                  [Event.index (ch.drop (ch.length / chunkOf iopts * chunkOf iopts))] else []),
              []⟩) ∨
    ((1 ≤ iopts.Concurrency ∨
        intake ch iopts / chunkOf iopts * (chunkOf iopts + chunkOf iopts) ≤ queueCapacity) ∧
      (0 < iopts.Limit ∧ iopts.Limit ≤ (ch.length : Int)) ∧
      ((intake ch iopts : Nat) : Int) = iopts.Limit ∧
      IngestDocuments room ch cl iopts
        = ⟨Outcome.returned,
            chunkTrace (chunkOf iopts) (intake ch iopts / chunkOf iopts) 0 0 ch,
            ch.drop (intake ch iopts)⟩) := by
  by_cases hsend : 1 ≤ iopts.Concurrency ∨
      intake ch iopts / chunkOf iopts * (chunkOf iopts + chunkOf iopts) ≤ queueCapacity
  · by_cases hact : 0 < iopts.Limit ∧ iopts.Limit ≤ (ch.length : Int)
    · have hin : intake ch iopts = iopts.Limit.toNat := by
        unfold intake; rw [if_pos hact]
      have hl : iopts.Limit = ((intake ch iopts : Nat) : Int) := by rw [hin]; omega
      refine Or.inr (Or.inr ⟨hsend, hact, hl.symm, ?_⟩)
      exact ingest_limited room ch cl iopts hC hM (intake ch iopts) hl (by omega) (by omega) hsend
    · have hin : intake ch iopts = ch.length := by
        unfold intake; rw [if_neg hact]
      have hL : iopts.Limit ≤ 0 ∨ (ch.length : Int) < iopts.Limit := by omega
      refine Or.inr (Or.inl ⟨hsend, hL, hin, ?_⟩)
      rw [hin] at hsend ⊢
      exact ingest_unlimited room ch cl iopts hC hM hL hsend
  · have hw : ¬ 1 ≤ iopts.Concurrency := fun h => hsend (Or.inl h)
    have hover : queueCapacity
        < intake ch iopts / chunkOf iopts * (chunkOf iopts + chunkOf iopts) := by
      by_contra h
      exact hsend (Or.inr (Nat.le_of_not_lt h))
    have hlt : queueCapacity / (chunkOf iopts + chunkOf iopts)
        < intake ch iopts / chunkOf iopts := by
      by_contra hcon
      have h1 : intake ch iopts / chunkOf iopts * (chunkOf iopts + chunkOf iopts)
          ≤ queueCapacity / (chunkOf iopts + chunkOf iopts) * (chunkOf iopts + chunkOf iopts) :=
        Nat.mul_le_mul_right _ (Nat.le_of_not_lt hcon)
      have h2 := Nat.div_mul_le_self queueCapacity (chunkOf iopts + chunkOf iopts)
      omega
    have hreach : (queueCapacity / (chunkOf iopts + chunkOf iopts) + 1) * chunkOf iopts
        ≤ ch.length :=
      Nat.le_trans (Nat.le_trans (Nat.mul_le_mul_right _ hlt) (Nat.div_mul_le_self _ _))
        (intake_le ch iopts)
    exact Or.inl ⟨hw, hover, hreach, ingest_blocked room ch cl iopts hC hM hw hover⟩

/-! ## Claims about `IngestDocuments`

The concrete runs below are on a machine with room for every buffer `make`
accepts (`room = maxSliceLen`). -/

/-- C1 (code defect). The loop stores the document in the staging buffer
(`docs[i%chunk] = doc`) before it replaces a zero score in the loop variable,
and only the buffer is ever handed on.  A document read with `Score` 0 is
therefore delivered to `idx.Index` with `Score` 0: by a worker when the chunk
size is 1, and in the final batch when the chunk size is 2 (the reader closes
its channel). -/
theorem C1_zero_score_delivered_unchanged :
    indexCalls 1 (IngestDocuments maxSliceLen [⟨"a", 0, []⟩] true ⟨1, 1, 0⟩).trace = [[⟨"a", 0, []⟩]] ∧
    indexCalls 1 (IngestDocuments maxSliceLen [⟨"a", 0, []⟩] true ⟨2, 1, 0⟩).trace = [[⟨"a", 0, []⟩]] ∧
    (⟨"a", 0, []⟩ : Document).Score = 0 := by
  decide

/-- C2 (code defect). The workers skip documents with an empty `Id`, the final
flush `idx.Index(docs[:i%chunk], opts)` does not: with chunk size 2, a source
consisting of one document with an empty `Id` (after which the reader closes
its channel) makes the producer call `idx.Index` with that document, while with
chunk size 1 the same document goes through the worker queue and is dropped. -/
theorem C2_empty_id_in_final_batch :
    indexCalls 1 (IngestDocuments maxSliceLen [⟨"", 1, []⟩] true ⟨2, 1, 0⟩).trace = [[⟨"", 1, []⟩]] ∧
    indexCalls 1 (IngestDocuments maxSliceLen [⟨"", 1, []⟩] true ⟨1, 1, 0⟩).trace = [] := by
  decide

/-- C3 (code defect). With chunk size 2, one worker and no limit, the source
`a, b, (empty id)` of a reader that closes its channel leads to three documents
over all `idx.Index` calls although only two source documents have a non-empty
`Id`: the trailing document with the empty `Id` is delivered by the unfiltered
final flush. -/
theorem C3_final_batch_counts_empty_id :
    ((indexCalls 1
        (IngestDocuments maxSliceLen [⟨"a", 1, []⟩, ⟨"b", 1, []⟩, ⟨"", 1, []⟩] true ⟨2, 1, 0⟩).trace).map
      List.length).sum = 3 ∧
    (([⟨"a", 1, []⟩, ⟨"b", 1, []⟩, ⟨"", 1, []⟩] : List Document).filter
      (fun d => d.Id ≠ "")).length = 2 := by
  decide

/-- C4, counterexample. Three ways in which the final call is not made.
With `Concurrency = 0`, chunk size 51 and a source of 52 = 1*51 + 1 documents
the producer blocks at the first chunk boundary after 100 of the 102 sends and
never reads the trailing document.  With chunk size `2^62` (where `chunk*2`
wraps to a negative number) or `2^44` (where the buffer exceeds what `make`
accepts) the run panics before it reads anything.  With a reader that sends
three documents and never closes its channel (chunk size 2, one worker) the
producer dispatches the one full chunk and then waits for ever.  On a machine
with room for three documents only, the buffer of four for chunk size 2 cannot
be allocated. -/
theorem C4_counterexample :
    (IngestDocuments maxSliceLen (List.replicate 52 (plainDoc "a")) true ⟨51, 0, 0⟩).outcome
      = Outcome.blocked ∧
    flushCalls (IngestDocuments maxSliceLen (List.replicate 52 (plainDoc "a")) true ⟨51, 0, 0⟩).trace = [] ∧
    reports (IngestDocuments maxSliceLen (List.replicate 52 (plainDoc "a")) true ⟨51, 0, 0⟩).trace = [] ∧
    (pushed (IngestDocuments maxSliceLen (List.replicate 52 (plainDoc "a")) true ⟨51, 0, 0⟩).trace).length
      = 100 ∧
    (IngestDocuments maxSliceLen (List.replicate 52 (plainDoc "a")) true ⟨51, 0, 0⟩).rest.length = 1 ∧
    IngestDocuments maxSliceLen [plainDoc "a", plainDoc "b", plainDoc "c"] true ⟨2 ^ 62, 1, 0⟩
      = ⟨Outcome.panicked, [], [plainDoc "a", plainDoc "b", plainDoc "c"]⟩ ∧
    IngestDocuments maxSliceLen [plainDoc "a", plainDoc "b", plainDoc "c"] true ⟨2 ^ 44, 1, 0⟩
      = ⟨Outcome.panicked, [], [plainDoc "a", plainDoc "b", plainDoc "c"]⟩ ∧
    IngestDocuments maxSliceLen [plainDoc "a", plainDoc "b", plainDoc "c"] false ⟨2, 1, 0⟩
      = ⟨Outcome.waiting,
          [Event.push [plainDoc "a", plainDoc "b", zeroDoc, zeroDoc], Event.report 2 2 0 0],
          []⟩ ∧
    IngestDocuments 3 [plainDoc "a", plainDoc "b", plainDoc "c"] true ⟨2, 1, 0⟩
      = ⟨Outcome.panicked, [], [plainDoc "a", plainDoc "b", plainDoc "c"]⟩ := by
  decide

/-- C4 (amended). For a chunk size `C > 0` (`ChunkSize`, or 1000 when it is 0)
whose staging buffer of `2*C` documents can be made (`2*C` within what `make`
accepts and what the machine has room for), `Limit = 0`, a queue that
never fills (at least one worker, or `k` dispatches of `2*C` documents within
the capacity of 100), and a source of exactly `k*C + r` documents with `r < C`.
When the reader closes its channel, the run reads the whole source and
returns; it consists of exactly `k` full-chunk dispatches (each a push of the
chunk followed by a report), the `j`-th one made when `j*C` documents have been
read, followed by one final `idx.Index` call with the last `r` source documents
when `r > 0` and by no final call when `r = 0`.  When the reader never closes
its channel, the same `k` dispatches are made, no final call follows and the
producer waits for ever. -/
theorem C4_chunk_dispatches (room : Int) (ch : List Document) (iopts : IngestOptions) (k r : Nat)
    (hC : 0 ≤ iopts.ChunkSize) (hM : ((chunkOf iopts : Nat) : Int) * 2 ≤ min maxSliceLen room)
    (hL : iopts.Limit = 0)
    (hsend : 1 ≤ iopts.Concurrency ∨ k * (chunkOf iopts + chunkOf iopts) ≤ queueCapacity)
    (hlen : ch.length = k * chunkOf iopts + r) (hr : r < chunkOf iopts) :
    (IngestDocuments room ch true iopts).outcome = Outcome.returned ∧
    (IngestDocuments room ch true iopts).rest = [] ∧
    (IngestDocuments room ch true iopts).trace
      = chunkTrace (chunkOf iopts) k 0 0 ch ++
          (if 0 < r then [Event.index (ch.drop (k * chunkOf iopts))] else []) ∧
    (dispatches (IngestDocuments room ch true iopts).trace).length = k ∧
    dispatches (IngestDocuments room ch true iopts).trace
      = (List.range k).map (fun j =>
          (ch.drop (j * chunkOf iopts)).take (chunkOf iopts) ++
            List.replicate (chunkOf iopts) zeroDoc) ∧
    (reports (IngestDocuments room ch true iopts).trace).map Report.i
      = (List.range k).map (fun j => (j + 1) * chunkOf iopts) ∧
    flushCalls (IngestDocuments room ch true iopts).trace
      = (if 0 < r then [ch.drop (k * chunkOf iopts)] else []) ∧
    (ch.drop (k * chunkOf iopts)).length = r ∧
    IngestDocuments room ch false iopts
      = ⟨Outcome.waiting, chunkTrace (chunkOf iopts) k 0 0 ch, []⟩ := by
  have hc := chunkOf_pos iopts hC
  have hk : ch.length / chunkOf iopts = k := by
    rw [hlen, Nat.mul_comm, Nat.mul_add_div hc, Nat.div_eq_of_lt hr, Nat.add_zero]
  have hm : ch.length % chunkOf iopts = r := by
    rw [hlen, Nat.mul_comm, Nat.mul_add_mod, Nat.mod_eq_of_lt hr]
  have hrun := fun cl => ingest_unlimited room ch cl iopts hC hM (Or.inl (by omega))
    (by rw [hk]; exact hsend)
  simp only [hk, hm] at hrun
  have hif : (if r ≠ 0 then [Event.index (ch.drop (k * chunkOf iopts))] else [])
      = (if 0 < r then [Event.index (ch.drop (k * chunkOf iopts))] else []) := by
    by_cases h0 : r = 0
    · simp [h0]
    · simp [h0, Nat.pos_of_ne_zero h0]
  have ht := hrun true
  have hf := hrun false
  simp only [Bool.true_eq_false, if_false, hif] at ht
  simp only [if_true] at hf
  rw [ht, hf]
  refine ⟨rfl, rfl, rfl, ?_, ?_, ?_, ?_, ?_, rfl⟩
  · rw [dispatches_append, dispatches_chunkTrace]
    by_cases h0 : 0 < r <;> simp [h0, dispatches]
  · rw [dispatches_append, dispatches_chunkTrace]
    by_cases h0 : 0 < r <;> simp [h0, dispatches]
  · rw [reports_append, reports_chunkTrace]
    by_cases h0 : 0 < r <;> simp [h0, reports]
  · rw [flushCalls_append, flushCalls_chunkTrace]
    by_cases h0 : 0 < r <;> simp [h0, flushCalls]
  · rw [List.length_drop]; omega

/-- C4, witness: five documents, chunk size 2 and no worker (two dispatches of
four documents fit the queue).  With a closing reader the run is two
dispatches, two reports and a final call with the fifth document; with a
reader that never closes, the same without the final call. -/
theorem C4_chunk_dispatches_witness :
    (0 : Int) ≤ 2 ∧ ((chunkOf ⟨2, 0, 0⟩ : Nat) : Int) * 2 ≤ min maxSliceLen maxSliceLen ∧
    (0 : Int) = 0 ∧
    ((1 : Int) ≤ 0 ∨ 2 * (chunkOf ⟨2, 0, 0⟩ + chunkOf ⟨2, 0, 0⟩) ≤ queueCapacity) ∧
    fiveDocs.length = 2 * chunkOf ⟨2, 0, 0⟩ + 1 ∧ 1 < chunkOf ⟨2, 0, 0⟩ ∧
    IngestDocuments maxSliceLen fiveDocs true ⟨2, 0, 0⟩
      = ⟨Outcome.returned,
          [Event.push [⟨"a", 1, [("t", Value.str "x")]⟩, ⟨"b", 1, []⟩, zeroDoc, zeroDoc],
            Event.report 2 2 2 2,
            Event.push [⟨"c", 1, [("k", Value.str "hello")]⟩, ⟨"d", 1, [("n", Value.num 7)]⟩,
              zeroDoc, zeroDoc],
            Event.report 4 2 6 8,
            Event.index [⟨"e", 1, []⟩]],
          []⟩ ∧
    flushCalls (IngestDocuments maxSliceLen fiveDocs true ⟨2, 0, 0⟩).trace = [[⟨"e", 1, []⟩]] ∧
    (IngestDocuments maxSliceLen fiveDocs false ⟨2, 0, 0⟩).outcome = Outcome.waiting ∧
    flushCalls (IngestDocuments maxSliceLen fiveDocs false ⟨2, 0, 0⟩).trace = [] := by
  have h := C4_chunk_dispatches maxSliceLen fiveDocs ⟨2, 0, 0⟩ 2 1 (by decide) (by decide) rfl
    (Or.inr (by decide)) (by decide) (by decide)
  refine ⟨by decide, by decide, rfl, Or.inr (by decide), by decide, by decide, ?_, ?_, ?_, ?_⟩
  · have e : IngestDocuments maxSliceLen fiveDocs true ⟨2, 0, 0⟩
        = ⟨(IngestDocuments maxSliceLen fiveDocs true ⟨2, 0, 0⟩).outcome,
            (IngestDocuments maxSliceLen fiveDocs true ⟨2, 0, 0⟩).trace,
            (IngestDocuments maxSliceLen fiveDocs true ⟨2, 0, 0⟩).rest⟩ := rfl
    rw [e, h.1, h.2.2.1, h.2.1]
    decide
  · exact h.2.2.2.2.2.2.1.trans (by decide)
  · rw [h.2.2.2.2.2.2.2.2]
  · rw [h.2.2.2.2.2.2.2.2]; decide

/-- C5, counterexample. With `Concurrency = 0`, chunk size 51, `Limit = 60` and
a source of 61 documents the producer blocks at the first chunk boundary: it
has pulled 51 documents, not 60, and it never returns.  With chunk size `2^62`
and `Limit = 2` on a source of three documents the run panics in `make` and
pulls no document at all, as does chunk size 2 on a machine with room for
three documents only. -/
theorem C5_counterexample :
    (IngestDocuments maxSliceLen (List.replicate 61 (plainDoc "a")) true ⟨51, 0, 60⟩).outcome
      = Outcome.blocked ∧
    pulled (List.replicate 61 (plainDoc "a"))
      (IngestDocuments maxSliceLen (List.replicate 61 (plainDoc "a")) true ⟨51, 0, 60⟩) = 51 ∧
    (IngestDocuments maxSliceLen [plainDoc "a", plainDoc "b", plainDoc "c"] true ⟨2 ^ 62, 1, 2⟩).outcome
      = Outcome.panicked ∧
    pulled [plainDoc "a", plainDoc "b", plainDoc "c"]
      (IngestDocuments maxSliceLen [plainDoc "a", plainDoc "b", plainDoc "c"] true
        ⟨2 ^ 62, 1, 2⟩) = 0 ∧
    IngestDocuments 3 [plainDoc "a", plainDoc "b", plainDoc "c"] true ⟨2, 1, 2⟩
      = ⟨Outcome.panicked, [], [plainDoc "a", plainDoc "b", plainDoc "c"]⟩ := by
  decide

/-- C5 (amended). For a chunk size `C > 0` whose staging buffer can be made, a
limit `L > 0`, a queue that never fills (at least one worker, or the `L / C`
dispatches of `2*C` documents within the capacity of 100) and a source of more
than `L` documents, whether or not the reader ever closes its channel: the run
pulls exactly `L` documents (whatever their ids), returns nil leaving the
remaining documents unread, has printed `L / C` reports and makes no final
flush. -/
theorem C5_limit_stops_consumption (room : Int) (ch : List Document) (cl : Bool) (iopts : IngestOptions)
    (l : Nat) (hC : 0 ≤ iopts.ChunkSize) (hM : ((chunkOf iopts : Nat) : Int) * 2 ≤ min maxSliceLen room)
    (hLim : iopts.Limit = (l : Int)) (hl : 0 < l) (hlen : l < ch.length)
    (hsend : 1 ≤ iopts.Concurrency ∨
      l / chunkOf iopts * (chunkOf iopts + chunkOf iopts) ≤ queueCapacity) :
    (IngestDocuments room ch cl iopts).outcome = Outcome.returned ∧
    (IngestDocuments room ch cl iopts).rest = ch.drop l ∧
    pulled ch (IngestDocuments room ch cl iopts) = l ∧
    (reports (IngestDocuments room ch cl iopts).trace).length = l / chunkOf iopts ∧
    flushCalls (IngestDocuments room ch cl iopts).trace = [] := by
  rw [ingest_limited room ch cl iopts hC hM l hLim hl (Nat.le_of_lt hlen) hsend]
  refine ⟨rfl, rfl, ?_, ?_, ?_⟩
  · show ch.length - (ch.drop l).length = l
    rw [List.length_drop]; omega
  · rw [reports_chunkTrace]; simp
  · exact flushCalls_chunkTrace _ _ _ _ _

/-- C5, witness: the scenario of 2500 documents, chunk size 1000, four workers
and limit 1500, with a reader that never closes its channel; and five
documents, chunk size 2, no worker and limit 3, where the run pulls three
documents, reports once and leaves `d` and `e` unread. -/
theorem C5_limit_stops_consumption_witness :
    (0 : Int) ≤ 1000 ∧
    ((chunkOf ⟨1000, 4, 1500⟩ : Nat) : Int) * 2 ≤ min maxSliceLen maxSliceLen ∧
    (1500 : Int) = ((1500 : Nat) : Int) ∧
    0 < 1500 ∧ 1500 < (List.replicate 2500 zeroDoc).length ∧
    ((IngestDocuments maxSliceLen (List.replicate 2500 zeroDoc) false ⟨1000, 4, 1500⟩).outcome
        = Outcome.returned ∧
      (IngestDocuments maxSliceLen (List.replicate 2500 zeroDoc) false ⟨1000, 4, 1500⟩).rest
        = (List.replicate 2500 zeroDoc).drop 1500 ∧
      pulled (List.replicate 2500 zeroDoc)
        (IngestDocuments maxSliceLen (List.replicate 2500 zeroDoc) false ⟨1000, 4, 1500⟩) = 1500 ∧
      (reports (IngestDocuments maxSliceLen (List.replicate 2500 zeroDoc) false ⟨1000, 4, 1500⟩).trace).length
        = 1500 / chunkOf ⟨1000, 4, 1500⟩ ∧
      flushCalls (IngestDocuments maxSliceLen (List.replicate 2500 zeroDoc) false ⟨1000, 4, 1500⟩).trace
        = []) ∧
    1500 / chunkOf ⟨1000, 4, 1500⟩ = 1 ∧
    ((1 : Int) ≤ 0 ∨ 3 / chunkOf ⟨2, 0, 3⟩ * (chunkOf ⟨2, 0, 3⟩ + chunkOf ⟨2, 0, 3⟩)
      ≤ queueCapacity) ∧
    (IngestDocuments maxSliceLen fiveDocs true ⟨2, 0, 3⟩).outcome = Outcome.returned ∧
    (IngestDocuments maxSliceLen fiveDocs true ⟨2, 0, 3⟩).rest = [⟨"d", 1, [("n", Value.num 7)]⟩, ⟨"e", 1, []⟩] ∧
    pulled fiveDocs (IngestDocuments maxSliceLen fiveDocs true ⟨2, 0, 3⟩) = 3 ∧
    (reports (IngestDocuments maxSliceLen fiveDocs true ⟨2, 0, 3⟩).trace).length = 1 := by
  have h := C5_limit_stops_consumption maxSliceLen fiveDocs true ⟨2, 0, 3⟩ 3 (by decide) (by decide) rfl
    (by decide) (by decide) (Or.inr (by decide))
  exact ⟨by decide, by decide, rfl, by decide, by rw [List.length_replicate]; decide,
    C5_limit_stops_consumption maxSliceLen (List.replicate 2500 zeroDoc) false ⟨1000, 4, 1500⟩ 1500
      (by decide) (by decide) rfl (by decide) (by rw [List.length_replicate]; decide)
      (Or.inl (by decide)),
    by decide, Or.inr (by decide), h.1, h.2.1.trans (by decide), h.2.2.1,
    h.2.2.2.1.trans (by decide)⟩

/-- Every run of a chunk size that is a Go `int` consists of a number of
complete chunks, each dispatched and reported, and of events without a report:
as many chunks as were consumed when the run is not blocked, one fewer when it
is. -/
theorem ingest_summary (room : Int) (ch : List Document) (cl : Bool) (iopts : IngestOptions)
    (hC : 0 ≤ iopts.ChunkSize) (hI : iopts.ChunkSize < 2 ^ 63) :
    ∃ m extra,
      (IngestDocuments room ch cl iopts).trace = chunkTrace (chunkOf iopts) m 0 0 ch ++ extra ∧
      reports extra = [] ∧
      ((IngestDocuments room ch cl iopts).outcome ≠ Outcome.blocked →
        m = pulled ch (IngestDocuments room ch cl iopts) / chunkOf iopts) ∧
      ((IngestDocuments room ch cl iopts).outcome = Outcome.blocked →
        m + 1 = pulled ch (IngestDocuments room ch cl iopts) / chunkOf iopts ∧
        pulled ch (IngestDocuments room ch cl iopts) % chunkOf iopts = 0) ∧
      ((IngestDocuments room ch cl iopts).outcome = Outcome.blocked ↔
        (¬ 1 ≤ iopts.Concurrency ∧ ((chunkOf iopts : Nat) : Int) * 2 ≤ min maxSliceLen room ∧
          queueCapacity
            < intake ch iopts / chunkOf iopts * (chunkOf iopts + chunkOf iopts))) := by
  have hc := chunkOf_pos iopts hC
  by_cases hM : ((chunkOf iopts : Nat) : Int) * 2 ≤ min maxSliceLen room
  · rcases ingest_cases room ch cl iopts hC hM with ⟨hw, hover, hreach, hrun⟩ | ⟨hsend, _, hin, hrun⟩ |
      ⟨hsend, hact, hin, hrun⟩
    · refine ⟨_, _, by rw [hrun], ?_, ?_, ?_, ?_⟩
      · rfl
      · intro h; rw [hrun] at h; exact absurd rfl h
      · intro _
        have hp : pulled ch (IngestDocuments room ch cl iopts)
            = (queueCapacity / (chunkOf iopts + chunkOf iopts) + 1) * chunkOf iopts := by
          rw [hrun]
          show ch.length - (ch.drop _).length = _
          rw [List.length_drop]; omega
        rw [hp, Nat.mul_div_cancel _ hc, Nat.mul_mod_left]
        exact ⟨rfl, rfl⟩
      · rw [hrun]
        exact ⟨fun _ => ⟨hw, hM, hover⟩, fun _ => rfl⟩
    · cases cl with
      | false =>
        have hne : Outcome.waiting ≠ Outcome.blocked := by decide
        simp only [if_true] at hrun
        refine ⟨_, [], by rw [hrun, List.append_nil], rfl, ?_, ?_, ?_⟩
        · intro _; rw [hrun, hin]; simp [pulled]
        · intro h; rw [hrun] at h; exact absurd h hne
        · rw [hrun]
          exact ⟨fun h => absurd h hne, fun h => by
            rcases hsend with h1 | h1
            · exact absurd h1 h.1
            · omega⟩
      | true =>
        have hne : Outcome.returned ≠ Outcome.blocked := by decide
        simp only [Bool.true_eq_false, if_false] at hrun
        refine ⟨_, _, by rw [hrun], ?_, ?_, ?_, ?_⟩
        · by_cases h0 : ch.length % chunkOf iopts = 0 <;> simp [h0, reports]
        · intro _; rw [hrun, hin]; simp [pulled]
        · intro h; rw [hrun] at h; exact absurd h hne
        · rw [hrun]
          exact ⟨fun h => absurd h hne, fun h => by
            rcases hsend with h1 | h1
            · exact absurd h1 h.1
            · omega⟩
    · have hne : Outcome.returned ≠ Outcome.blocked := by decide
      refine ⟨_, [], by rw [hrun, List.append_nil], rfl, ?_, ?_, ?_⟩
      · intro _
        rw [hrun]
        show _ = (ch.length - (ch.drop (intake ch iopts)).length) / chunkOf iopts
        rw [List.length_drop]
        congr 1
        have := intake_le ch iopts
        omega
      · intro h; rw [hrun] at h; exact absurd h hne
      · rw [hrun]
        exact ⟨fun h => absurd h hne, fun h => by
          rcases hsend with h1 | h1
          · exact absurd h1 h.1
          · omega⟩
  · have hne : Outcome.panicked ≠ Outcome.blocked := by decide
    have hrun := ingest_panics room ch cl iopts hC hI (by omega)
    refine ⟨0, [], by rw [hrun]; rfl, rfl, ?_, ?_, ?_⟩
    · intro _; rw [hrun]; simp [pulled]
    · intro h; rw [hrun] at h; exact absurd h hne
    · rw [hrun]
      exact ⟨fun h => absurd h hne, fun h => absurd h.2.1 hM⟩

/-- C6, counterexample. With `Concurrency = 0` and chunk size 51, a source of
51 documents is consumed completely, yet the producer blocks while pushing the
chunk and no report is ever printed, although `51 / 51 = 1`. -/
theorem C6_counterexample_no_worker :
    pulled (List.replicate 51 (plainDoc "a"))
      (IngestDocuments maxSliceLen (List.replicate 51 (plainDoc "a")) true ⟨51, 0, 0⟩) = 51 ∧
    reports (IngestDocuments maxSliceLen (List.replicate 51 (plainDoc "a")) true ⟨51, 0, 0⟩).trace = [] ∧
    (IngestDocuments maxSliceLen (List.replicate 51 (plainDoc "a")) true ⟨51, 0, 0⟩).outcome
      = Outcome.blocked := by
  decide

/-- C6 (amended). For every chunk size `C > 0` (a Go `int`), every source,
every number of workers and whether or not the reader closes its channel: the
`j`-th report (counting from 1) is printed when exactly `j*C` documents have
been consumed and carries that count, the interval count `C`, the string bytes
of the `j`-th chunk and the string bytes of the first `j*C` documents; the
cumulative byte totals of successive reports never decrease; a run that is not
blocked on the worker queue has printed exactly `n / C` reports for the `n`
documents it has consumed (none for a trailing incomplete chunk); a blocked run
has consumed a multiple `n` of `C` and printed `n / C - 1` reports, the chunk it
is pushing being unreported; and a run is blocked exactly when there is no
worker, the staging buffer can be made (`2*C` within what `make` accepts and
what the machine has room for), and the dispatches due for its intake exceed
the queue capacity of 100. -/
theorem C6_report_cadence (room : Int) (ch : List Document) (cl : Bool) (iopts : IngestOptions)
    (hC : 0 ≤ iopts.ChunkSize) (hI : iopts.ChunkSize < 2 ^ 63) :
    reports (IngestDocuments room ch cl iopts).trace
      = (List.range (reports (IngestDocuments room ch cl iopts).trace).length).map (fun j =>
          (⟨(j + 1) * chunkOf iopts, chunkOf iopts,
            sourceBytes ((ch.drop (j * chunkOf iopts)).take (chunkOf iopts)),
            sourceBytes (ch.take ((j + 1) * chunkOf iopts))⟩ : Report)) ∧
    List.Pairwise (fun a b => a ≤ b)
      ((reports (IngestDocuments room ch cl iopts).trace).map Report.totalDt) ∧
    ((IngestDocuments room ch cl iopts).outcome ≠ Outcome.blocked →
      (reports (IngestDocuments room ch cl iopts).trace).length
        = pulled ch (IngestDocuments room ch cl iopts) / chunkOf iopts) ∧
    ((IngestDocuments room ch cl iopts).outcome = Outcome.blocked →
      (reports (IngestDocuments room ch cl iopts).trace).length + 1
          = pulled ch (IngestDocuments room ch cl iopts) / chunkOf iopts ∧
        pulled ch (IngestDocuments room ch cl iopts) % chunkOf iopts = 0) ∧
    ((IngestDocuments room ch cl iopts).outcome = Outcome.blocked ↔
      (¬ 1 ≤ iopts.Concurrency ∧ ((chunkOf iopts : Nat) : Int) * 2 ≤ min maxSliceLen room ∧
        queueCapacity
          < intake ch iopts / chunkOf iopts * (chunkOf iopts + chunkOf iopts))) := by
  obtain ⟨m, extra, htrace, hextra, hfree, hblocked, hiff⟩ := ingest_summary room ch cl iopts hC hI
  have hrep : reports (IngestDocuments room ch cl iopts).trace
      = (List.range m).map (fun j =>
          (⟨(j + 1) * chunkOf iopts, chunkOf iopts,
            sourceBytes ((ch.drop (j * chunkOf iopts)).take (chunkOf iopts)),
            sourceBytes (ch.take ((j + 1) * chunkOf iopts))⟩ : Report)) := by
    rw [htrace, reports_append, hextra, List.append_nil, reports_chunkTrace]
    simp
  have hlen : (reports (IngestDocuments room ch cl iopts).trace).length = m := by
    rw [hrep]; simp
  refine ⟨by rw [hlen]; exact hrep, ?_, ?_, ?_, hiff⟩
  · rw [hrep, List.map_map, List.pairwise_map]
    refine List.Pairwise.imp ?_ (List.pairwise_lt_range m)
    intro a b hab
    exact sourceBytes_take_mono ch _ _ (Nat.mul_le_mul_right _ (by omega))
  · intro h; rw [hlen]; exact hfree h
  · intro h; rw [hlen]; exact hblocked h

/-- C6, witness: five documents with chunk size 2 and one worker give two
reports, at 2 and at 4 documents, with chunk bytes 2 and 6 and cumulative bytes
2 and 8, and none for the fifth document; 80 documents with chunk size 25 and
no worker give the reports at 25 and 50 and block at the third boundary, with 75
documents consumed. -/
theorem C6_report_cadence_witness :
    (0 : Int) ≤ 2 ∧ (2 : Int) < 2 ^ 63 ∧
    reports (IngestDocuments maxSliceLen fiveDocs true ⟨2, 1, 0⟩).trace = [⟨2, 2, 2, 2⟩, ⟨4, 2, 6, 8⟩] ∧
    List.Pairwise (fun a b => a ≤ b)
      ((reports (IngestDocuments maxSliceLen fiveDocs true ⟨2, 1, 0⟩).trace).map Report.totalDt) ∧
    (reports (IngestDocuments maxSliceLen fiveDocs true ⟨2, 1, 0⟩).trace).length
      = pulled fiveDocs (IngestDocuments maxSliceLen fiveDocs true ⟨2, 1, 0⟩) / chunkOf ⟨2, 1, 0⟩ ∧
    pulled fiveDocs (IngestDocuments maxSliceLen fiveDocs true ⟨2, 1, 0⟩) = 5 ∧
    (0 : Int) ≤ 25 ∧ (25 : Int) < 2 ^ 63 ∧
    (IngestDocuments maxSliceLen (List.replicate 80 (plainDoc "a")) true ⟨25, 0, 0⟩).outcome
      = Outcome.blocked ∧
    reports (IngestDocuments maxSliceLen (List.replicate 80 (plainDoc "a")) true ⟨25, 0, 0⟩).trace
      = [⟨25, 25, 0, 0⟩, ⟨50, 25, 0, 0⟩] ∧
    (reports (IngestDocuments maxSliceLen (List.replicate 80 (plainDoc "a")) true ⟨25, 0, 0⟩).trace).length
        + 1
      = pulled (List.replicate 80 (plainDoc "a"))
          (IngestDocuments maxSliceLen (List.replicate 80 (plainDoc "a")) true ⟨25, 0, 0⟩)
        / chunkOf ⟨25, 0, 0⟩ ∧
    pulled (List.replicate 80 (plainDoc "a"))
      (IngestDocuments maxSliceLen (List.replicate 80 (plainDoc "a")) true ⟨25, 0, 0⟩) = 75 := by
  have h := C6_report_cadence maxSliceLen fiveDocs true ⟨2, 1, 0⟩ (by decide) (by decide)
  have hb := C6_report_cadence maxSliceLen (List.replicate 80 (plainDoc "a")) true ⟨25, 0, 0⟩ (by decide)
    (by decide)
  have hblocked : (IngestDocuments maxSliceLen (List.replicate 80 (plainDoc "a")) true ⟨25, 0, 0⟩).outcome
      = Outcome.blocked := hb.2.2.2.2.2 ⟨by decide, by decide, by decide⟩
  exact ⟨by decide, by decide, h.1.trans (by decide), h.2.1, h.2.2.1 (by decide), by decide,
    by decide, by decide, hblocked, hb.1.trans (by decide), (hb.2.2.2.1 hblocked).1, by decide⟩

/-- C9, counterexample. The dispatch loop ranges over the whole staging buffer
of `2*C` slots, whose upper half is never written.  With chunk size 1 and one
worker, the single dispatch for the source `a` pushes `a` followed by a
zero-valued document, not `a` alone.  With chunk size 51 and no worker the one
dispatch stops after 100 sends: the 51 documents of the chunk and 49
zero-valued documents.  With chunk size `2^62` the run panics in `make` and
nothing is pushed at all, as with chunk size 2 on a machine with room for three
documents only. -/
theorem C9_counterexample :
    dispatches (IngestDocuments maxSliceLen [plainDoc "a"] true ⟨1, 1, 0⟩).trace
      = [[plainDoc "a", zeroDoc]] ∧
    dispatches (IngestDocuments maxSliceLen (List.replicate 51 (plainDoc "a")) true ⟨51, 0, 0⟩).trace
      = [List.replicate 51 (plainDoc "a") ++ List.replicate 49 zeroDoc] ∧
    (IngestDocuments maxSliceLen (List.replicate 51 (plainDoc "a")) true ⟨51, 0, 0⟩).outcome
      = Outcome.blocked ∧
    (IngestDocuments maxSliceLen [plainDoc "a", plainDoc "b"] true ⟨2 ^ 62, 1, 0⟩).outcome
      = Outcome.panicked ∧
    dispatches
        (IngestDocuments maxSliceLen [plainDoc "a", plainDoc "b"] true ⟨2 ^ 62, 1, 0⟩).trace
      = [] ∧
    dispatches (IngestDocuments 3 [plainDoc "a", plainDoc "b"] true ⟨2, 1, 0⟩).trace = [] := by
  decide

/-- C9 (amended). For a chunk size `C > 0` whose staging buffer can be made and
`j ≥ 1` such that the source yields at least `j*C` documents, the limit does
not stop the run before, and the queue takes the first `j` dispatches (at least
one worker, or `j` dispatches of `2*C` documents within the capacity of 100),
whether or not the reader closes its channel: the items pushed at the `j`-th
chunk boundary are the source documents number `(j-1)*C+1` through `j*C`, each
once and in source order, followed by `C` zero-valued documents (the unwritten
upper half of the staging buffer); no document of an earlier chunk is among
them. -/
theorem C9_dispatch_window (room : Int) (ch : List Document) (cl : Bool) (iopts : IngestOptions) (j : Nat)
    (hC : 0 ≤ iopts.ChunkSize) (hM : ((chunkOf iopts : Nat) : Int) * 2 ≤ min maxSliceLen room) (hj : 1 ≤ j)
    (hlen : j * chunkOf iopts ≤ ch.length)
    (hL : iopts.Limit ≤ 0 ∨ ((j * chunkOf iopts : Nat) : Int) ≤ iopts.Limit)
    (hsend : 1 ≤ iopts.Concurrency ∨ j * (chunkOf iopts + chunkOf iopts) ≤ queueCapacity) :
    (dispatches (IngestDocuments room ch cl iopts).trace)[j - 1]?
      = some ((ch.drop ((j - 1) * chunkOf iopts)).take (chunkOf iopts) ++
          List.replicate (chunkOf iopts) zeroDoc) ∧
    ((ch.drop ((j - 1) * chunkOf iopts)).take (chunkOf iopts)).length = chunkOf iopts := by
  have hc := chunkOf_pos iopts hC
  have hcc : 0 < chunkOf iopts + chunkOf iopts := by omega
  have hsub : (j - 1) * chunkOf iopts + chunkOf iopts = j * chunkOf iopts := by
    rw [← Nat.succ_mul]; congr 1; omega
  have hin : j * chunkOf iopts ≤ intake ch iopts := by
    unfold intake
    split
    · omega
    · exact hlen
  have hjk : j ≤ intake ch iopts / chunkOf iopts := (Nat.le_div_iff_mul_le hc).2 hin
  have key : ∃ m tail, j ≤ m ∧ dispatches (IngestDocuments room ch cl iopts).trace
      = (List.range m).map (fun t =>
          (ch.drop (t * chunkOf iopts)).take (chunkOf iopts) ++
            List.replicate (chunkOf iopts) zeroDoc) ++ tail := by
    rcases ingest_cases room ch cl iopts hC hM with ⟨hw, _, _, hrun⟩ | ⟨_, _, _, hrun⟩ |
      ⟨_, _, _, hrun⟩
    · have h1 : j ≤ queueCapacity / (chunkOf iopts + chunkOf iopts) := by
        rcases hsend with h | h
        · exact absurd h hw
        · exact (Nat.le_div_iff_mul_le hcc).2 h
      exact ⟨_, _, h1, by rw [hrun, dispatches_append, dispatches_chunkTrace]⟩
    · cases cl with
      | false =>
        simp only [if_true] at hrun
        exact ⟨_, [], hjk, by rw [hrun, dispatches_chunkTrace, List.append_nil]⟩
      | true =>
        simp only [Bool.true_eq_false, if_false] at hrun
        exact ⟨_, _, hjk, by rw [hrun, dispatches_append, dispatches_chunkTrace]⟩
    · exact ⟨_, [], hjk, by rw [hrun, dispatches_chunkTrace, List.append_nil]⟩
  obtain ⟨m, tail, hjm, hdis⟩ := key
  constructor
  · rw [hdis, List.getElem?_append_left (by simp; omega), List.getElem?_map,
      List.getElem?_range (by omega)]
    rfl
  · rw [List.length_take, List.length_drop]; omega

/-- C9, witness: five documents with distinct ids, chunk size 2, no worker and
a reader that never closes its channel.  The second dispatch pushes `c` and `d`
and two zero-valued documents, and neither `a` nor `b` of the first chunk. -/
theorem C9_dispatch_window_witness :
    (0 : Int) ≤ 2 ∧ ((chunkOf ⟨2, 0, 0⟩ : Nat) : Int) * 2 ≤ min maxSliceLen maxSliceLen ∧
    1 ≤ 2 ∧
    2 * chunkOf ⟨2, 0, 0⟩ ≤ fiveDocs.length ∧
    ((1 : Int) ≤ 0 ∨ 2 * (chunkOf ⟨2, 0, 0⟩ + chunkOf ⟨2, 0, 0⟩) ≤ queueCapacity) ∧
    (dispatches (IngestDocuments maxSliceLen fiveDocs false ⟨2, 0, 0⟩).trace)[2 - 1]?
      = some [⟨"c", 1, [("k", Value.str "hello")]⟩, ⟨"d", 1, [("n", Value.num 7)]⟩,
          zeroDoc, zeroDoc] ∧
    (dispatches (IngestDocuments maxSliceLen fiveDocs false ⟨2, 0, 0⟩).trace)[1 - 1]?
      = some [⟨"a", 1, [("t", Value.str "x")]⟩, ⟨"b", 1, []⟩, zeroDoc, zeroDoc] :=
  ⟨by decide, by decide, by decide, by decide, Or.inr (by decide),
    (C9_dispatch_window maxSliceLen fiveDocs false ⟨2, 0, 0⟩ 2 (by decide) (by decide) (by decide)
      (by decide) (Or.inl (by decide)) (Or.inr (by decide))).1.trans (by decide),
    (C9_dispatch_window maxSliceLen fiveDocs false ⟨2, 0, 0⟩ 1 (by decide) (by decide) (by decide)
      (by decide) (Or.inl (by decide)) (Or.inr (by decide))).1.trans (by decide)⟩

/-- C10, counterexample. With `Concurrency = 0` no worker is started: for chunk
size 1, `Limit = 1` and the source `a`, the run pushes the chunk, reports and
returns at the limit, and no `idx.Index` call is ever made, although `a` is a
non-empty-id document among the first `1 * (1 / 1)` source documents.  With
chunk size `2^62` or `2^44`, one worker and `Limit = 3` on the source `a, b, c`
the run panics in `make`: it consumes nothing and nothing is indexed; the same
happens with chunk size 2 on a machine with room for three documents only. -/
theorem C10_counterexample :
    (IngestDocuments maxSliceLen [plainDoc "a"] true ⟨1, 0, 1⟩).outcome = Outcome.returned ∧
    indexCalls 0 (IngestDocuments maxSliceLen [plainDoc "a"] true ⟨1, 0, 1⟩).trace = [] ∧
    (([plainDoc "a"] : List Document).take (1 * (1 / 1))).filter (fun d => d.Id ≠ "")
      = [plainDoc "a"] ∧
    IngestDocuments maxSliceLen [plainDoc "a", plainDoc "b", plainDoc "c"] true ⟨2 ^ 62, 1, 3⟩
      = ⟨Outcome.panicked, [], [plainDoc "a", plainDoc "b", plainDoc "c"]⟩ ∧
    IngestDocuments maxSliceLen [plainDoc "a", plainDoc "b", plainDoc "c"] true ⟨2 ^ 44, 1, 3⟩
      = ⟨Outcome.panicked, [], [plainDoc "a", plainDoc "b", plainDoc "c"]⟩ ∧
    IngestDocuments 3 [plainDoc "a", plainDoc "b", plainDoc "c"] true ⟨2, 1, 3⟩
      = ⟨Outcome.panicked, [], [plainDoc "a", plainDoc "b", plainDoc "c"]⟩ := by
  decide

/-- C10 (amended). For a chunk size `C > 0` whose staging buffer can be made, at
least one worker, a limit `L > 0` and a source of at least `L` documents,
whether or not the reader closes its channel: once the queue has been drained
the `idx.Index` calls are exactly one single-document call for every
non-empty-id document among the first `C * (L / C)` source documents; the run
returns at the limit without the final flush, so the last `L mod C` consumed
documents are in no `idx.Index` call. -/
theorem C10_limit_drops_tail (room : Int) (ch : List Document) (cl : Bool) (iopts : IngestOptions) (l : Nat)
    (hC : 0 ≤ iopts.ChunkSize) (hM : ((chunkOf iopts : Nat) : Int) * 2 ≤ min maxSliceLen room)
    (hw : 1 ≤ iopts.Concurrency) (hLim : iopts.Limit = (l : Int))
    (hl : 0 < l) (hlen : l ≤ ch.length) :
    indexCalls iopts.Concurrency (IngestDocuments room ch cl iopts).trace
      = ((ch.take (chunkOf iopts * (l / chunkOf iopts))).filter (fun d => d.Id ≠ "")).map
          (fun d => [d]) ∧
    flushCalls (IngestDocuments room ch cl iopts).trace = [] ∧
    (IngestDocuments room ch cl iopts).outcome = Outcome.returned ∧
    pulled ch (IngestDocuments room ch cl iopts) = l := by
  rw [ingest_limited room ch cl iopts hC hM l hLim hl hlen (Or.inl hw)]
  refine ⟨?_, flushCalls_chunkTrace _ _ _ _ _, rfl, ?_⟩
  · unfold indexCalls workerCalls
    rw [if_pos hw, flushCalls_chunkTrace, pushed_chunkTrace, List.append_nil, Nat.mul_comm]
  · show ch.length - (ch.drop l).length = l
    rw [List.length_drop]; omega

/-- C10, witness: the source `a, (empty id), c` with chunk size 2, one worker
and limit 3.  All three documents are consumed, `a` alone is indexed: the
empty-id document is dropped by the worker and `c`, consumed after the last
chunk boundary, is in no call. -/
theorem C10_limit_drops_tail_witness :
    (0 : Int) ≤ 2 ∧ ((chunkOf ⟨2, 1, 3⟩ : Nat) : Int) * 2 ≤ min maxSliceLen maxSliceLen ∧
    (1 : Int) ≤ 1 ∧
    (3 : Int) = ((3 : Nat) : Int) ∧ 0 < 3 ∧
    3 ≤ ([plainDoc "a", plainDoc "", plainDoc "c"] : List Document).length ∧
    indexCalls (1 : Int)
        (IngestDocuments maxSliceLen [plainDoc "a", plainDoc "", plainDoc "c"] true ⟨2, 1, 3⟩).trace
      = [[plainDoc "a"]] ∧
    flushCalls (IngestDocuments maxSliceLen [plainDoc "a", plainDoc "", plainDoc "c"] true ⟨2, 1, 3⟩).trace
      = [] ∧
    (IngestDocuments maxSliceLen [plainDoc "a", plainDoc "", plainDoc "c"] true ⟨2, 1, 3⟩).outcome
      = Outcome.returned ∧
    pulled [plainDoc "a", plainDoc "", plainDoc "c"]
      (IngestDocuments maxSliceLen [plainDoc "a", plainDoc "", plainDoc "c"] true ⟨2, 1, 3⟩) = 3 := by
  have h := C10_limit_drops_tail maxSliceLen [plainDoc "a", plainDoc "", plainDoc "c"] true ⟨2, 1, 3⟩ 3
    (by decide) (by decide) (by decide) rfl (by decide) (by decide)
  exact ⟨by decide, by decide, by decide, rfl, by decide, by decide, h.1.trans (by decide),
    h.2.1, h.2.2.1, h.2.2.2⟩

/-! ## Claims about `readWikiDump` -/

theorem readWikiDump_pages (urlForFile : String → String) (pages : List Page)
    (tail : List ParseResult) (hwf : ∀ pg ∈ pages, pg.Revisions ≠ []) :
    readWikiDump urlForFile (pages.map ParseResult.page ++ tail)
      = ⟨pages.map (emitted urlForFile) ++ (readWikiDump urlForFile tail).docs,
          (readWikiDump urlForFile tail).outcome⟩ := by
  induction pages with
  | nil => simp
  | cons pg pages ih =>
    have hpg : pg.Revisions ≠ [] := hwf pg (List.mem_cons_self _ _)
    have ih2 := ih (fun q hq => hwf q (List.mem_cons_of_mem _ hq))
    cases hrev : pg.Revisions with
    | nil => exact absurd hrev hpg
    | cons rev revs =>
      simp only [List.map_cons, List.cons_append, readWikiDump, hrev, List.append_eq, ih2,
        emitted, List.head?_cons, Option.map_some', Option.getD_some]

theorem leadingPages_split (outs : List ParseResult) :
    ∃ tail, outs = (leadingPages outs).map ParseResult.page ++ tail ∧
      (tail = [] ∨ (∃ later, tail = ParseResult.eof :: later) ∨
        ∃ msg later, tail = ParseResult.malformed msg :: later) := by
  induction outs with
  | nil => exact ⟨[], rfl, Or.inl rfl⟩
  | cons o outs ih =>
    cases o with
    | page pg =>
      obtain ⟨tail, h1, h2⟩ := ih
      refine ⟨tail, ?_, h2⟩
      simp only [leadingPages, List.map_cons, List.cons_append]
      rw [← h1]
    | eof => exact ⟨_, rfl, Or.inr (Or.inl ⟨outs, rfl⟩)⟩
    | malformed msg => exact ⟨_, rfl, Or.inr (Or.inr ⟨msg, outs, rfl⟩)⟩

/-- C8, counterexample. A malformed record ends the reader: for the outcomes
"malformed record, then a well-formed page with id 7" nothing is emitted, so the
page that follows the malformed record never reaches the channel. -/
theorem C8_counterexample_page_after_malformed :
    readWikiDump (fun t => t)
        [ParseResult.malformed "bad record", ParseResult.page ⟨7, "T", [⟨"text"⟩]⟩]
      = ⟨[], ReaderOutcome.done⟩ := by
  decide

/-- C8 (amended). A parser error other than end of input is not fatal, but it
ends the reader exactly as end of input does.  For every sequence of parser
outcomes whose pages before the first error all have at least one revision,
the reader emits exactly one document for each of these pages, in order, with
Id "WP_<page id>", score 1.0 and the fields title, body (text of the first
revision) and url, and then returns normally: this is so whether the pages are
followed by a malformed record, by the end-of-input error or by nothing more,
and whatever comes after that first error; no page after it is emitted.  (A
page without revisions makes `page.Revisions[0]` panic after the pages before
it have been emitted.) -/
theorem C8_reader_stops_at_first_error (urlForFile : String → String) (pages : List Page)
    (hwf : ∀ pg ∈ pages, pg.Revisions ≠ []) :
    (∀ outs, leadingPages outs = pages →
      readWikiDump urlForFile outs = ⟨pages.map (emitted urlForFile), ReaderOutcome.done⟩) ∧
    (∀ msg later,
      readWikiDump urlForFile (pages.map ParseResult.page ++ ParseResult.malformed msg :: later)
        = ⟨pages.map (emitted urlForFile), ReaderOutcome.done⟩) ∧
    (∀ later,
      readWikiDump urlForFile (pages.map ParseResult.page ++ ParseResult.eof :: later)
        = ⟨pages.map (emitted urlForFile), ReaderOutcome.done⟩) ∧
    readWikiDump urlForFile (pages.map ParseResult.page)
      = ⟨pages.map (emitted urlForFile), ReaderOutcome.done⟩ ∧
    (∀ pg later, pg.Revisions = [] →
      readWikiDump urlForFile (pages.map ParseResult.page ++ ParseResult.page pg :: later)
        = ⟨pages.map (emitted urlForFile), ReaderOutcome.panicked⟩) ∧
    (∀ pg ∈ pages, ∀ rev revs, pg.Revisions = rev :: revs →
      emitted urlForFile pg
        = ⟨"WP_" ++ toString pg.ID, 1,
            [("title", Value.str pg.Title), ("body", Value.str rev.Text),
              ("url", Value.str (urlForFile pg.Title))]⟩) := by
  have hmal : ∀ msg later,
      readWikiDump urlForFile (pages.map ParseResult.page ++ ParseResult.malformed msg :: later)
        = ⟨pages.map (emitted urlForFile), ReaderOutcome.done⟩ := by
    intro msg later
    rw [readWikiDump_pages urlForFile pages _ hwf]
    simp [readWikiDump]
  have heof : ∀ later,
      readWikiDump urlForFile (pages.map ParseResult.page ++ ParseResult.eof :: later)
        = ⟨pages.map (emitted urlForFile), ReaderOutcome.done⟩ := by
    intro later
    rw [readWikiDump_pages urlForFile pages _ hwf]
    simp [readWikiDump]
  have hend : readWikiDump urlForFile (pages.map ParseResult.page)
      = ⟨pages.map (emitted urlForFile), ReaderOutcome.done⟩ := by
    have h := readWikiDump_pages urlForFile pages [] hwf
    rw [List.append_nil] at h
    rw [h]
    simp [readWikiDump]
  refine ⟨?_, hmal, heof, hend, ?_, ?_⟩
  · intro outs hlead
    obtain ⟨tail, hsplit, htail⟩ := leadingPages_split outs
    rw [hlead] at hsplit
    rcases htail with rfl | ⟨later, rfl⟩ | ⟨msg, later, rfl⟩
    · rw [hsplit, List.append_nil]; exact hend
    · rw [hsplit]; exact heof later
    · rw [hsplit]; exact hmal msg later
  · intro pg later hrev
    rw [readWikiDump_pages urlForFile pages _ hwf]
    simp [readWikiDump, hrev]
  · intro pg _ rev revs hrev
    simp [emitted, hrev, pageDocument, NewDocument, Document.Set, mapInsert]

/-- C8, witness: two pages with ids 7 and 8.  Followed by the end-of-input
error, by a malformed record or by nothing, with a further page behind the
error, the reader emits the documents `WP_7` and `WP_8` and nothing else. -/
theorem C8_reader_stops_at_first_error_witness :
    (∀ pg ∈ [(⟨7, "T", [⟨"text"⟩]⟩ : Page), ⟨8, "U", [⟨"more"⟩, ⟨"older"⟩]⟩], pg.Revisions ≠ []) ∧
    readWikiDump (fun t => "/wiki/" ++ t)
        [ParseResult.page ⟨7, "T", [⟨"text"⟩]⟩, ParseResult.page ⟨8, "U", [⟨"more"⟩, ⟨"older"⟩]⟩,
          ParseResult.eof, ParseResult.page ⟨9, "V", [⟨"late"⟩]⟩]
      = ⟨[⟨"WP_7", 1, [("title", Value.str "T"), ("body", Value.str "text"),
              ("url", Value.str "/wiki/T")]⟩,
            ⟨"WP_8", 1, [("title", Value.str "U"), ("body", Value.str "more"),
              ("url", Value.str "/wiki/U")]⟩],
          ReaderOutcome.done⟩ ∧
    readWikiDump (fun t => "/wiki/" ++ t)
        [ParseResult.page ⟨7, "T", [⟨"text"⟩]⟩, ParseResult.page ⟨8, "U", [⟨"more"⟩, ⟨"older"⟩]⟩,
          ParseResult.malformed "bad", ParseResult.page ⟨9, "V", [⟨"late"⟩]⟩]
      = ⟨[⟨"WP_7", 1, [("title", Value.str "T"), ("body", Value.str "text"),
              ("url", Value.str "/wiki/T")]⟩,
            ⟨"WP_8", 1, [("title", Value.str "U"), ("body", Value.str "more"),
              ("url", Value.str "/wiki/U")]⟩],
          ReaderOutcome.done⟩ ∧
    (readWikiDump (fun t => "/wiki/" ++ t)
        [ParseResult.page ⟨7, "T", [⟨"text"⟩]⟩,
          ParseResult.page ⟨8, "U", [⟨"more"⟩, ⟨"older"⟩]⟩]).docs.map Document.Id
      = ["WP_7", "WP_8"] ∧
    readWikiDump (fun t => "/wiki/" ++ t)
        [ParseResult.page ⟨7, "T", [⟨"text"⟩]⟩, ParseResult.page ⟨8, "U", [⟨"more"⟩, ⟨"older"⟩]⟩,
          ParseResult.page ⟨9, "V", []⟩]
      = ⟨[⟨"WP_7", 1, [("title", Value.str "T"), ("body", Value.str "text"),
              ("url", Value.str "/wiki/T")]⟩,
            ⟨"WP_8", 1, [("title", Value.str "U"), ("body", Value.str "more"),
              ("url", Value.str "/wiki/U")]⟩],
          ReaderOutcome.panicked⟩ := by
  have h := C8_reader_stops_at_first_error (fun t => "/wiki/" ++ t)
    [⟨7, "T", [⟨"text"⟩]⟩, ⟨8, "U", [⟨"more"⟩, ⟨"older"⟩]⟩] (by decide)
  refine ⟨by decide, ?_, ?_, ?_, ?_⟩
  · exact (h.2.2.1 [ParseResult.page ⟨9, "V", [⟨"late"⟩]⟩]).trans (by decide)
  · exact (h.2.1 "bad" [ParseResult.page ⟨9, "V", [⟨"late"⟩]⟩]).trans (by decide)
  · rw [h.1 [ParseResult.page ⟨7, "T", [⟨"text"⟩]⟩,
      ParseResult.page ⟨8, "U", [⟨"more"⟩, ⟨"older"⟩]⟩] (by decide)]
    decide
  · exact (h.2.2.2.2.1 ⟨9, "V", []⟩ [] rfl).trans (by decide)

/-! ## Claims about `fieldTypeString` and `Index.Create` -/

theorem mapInsert_twice {V : Type} (m : List (String × V)) (k : String) (v w : V) :
    mapInsert (mapInsert m k v) k w = mapInsert m k w := by
  induction m with
  | nil => simp [mapInsert]
  | cons e rest ih =>
    obtain ⟨k1, v1⟩ := e
    by_cases h : k1 = k
    · simp [mapInsert, h]
    · simp [mapInsert, h, ih]

theorem mapLookup_insert_same {V : Type} (m : List (String × V)) (k : String) (v : V) :
    mapLookup (mapInsert m k v) k = some v := by
  induction m with
  | nil => simp [mapInsert, mapLookup]
  | cons e rest ih =>
    obtain ⟨k1, v1⟩ := e
    by_cases h : k1 = k
    · simp [mapInsert, mapLookup, h]
    · simp [mapInsert, mapLookup, h, ih]

theorem mapLookup_insert_other {V : Type} (m : List (String × V)) (k k2 : String) (v : V)
    (hne : k2 ≠ k) : mapLookup (mapInsert m k2 v) k = mapLookup m k := by
  induction m with
  | nil => simp [mapInsert, mapLookup, hne]
  | cons e rest ih =>
    obtain ⟨k1, v1⟩ := e
    by_cases h : k1 = k2
    · subst h; simp [mapInsert, mapLookup, hne]
    · by_cases h2 : k1 = k
      · subst h2; simp [mapInsert, mapLookup, h]
      · simp [mapInsert, mapLookup, h, h2, ih]

theorem buildProperties_unsupported (fs : List Field)
    (h : ∃ f ∈ fs, f.Type_ ≠ FieldType.TextField ∧ f.Type_ ≠ FieldType.NumericField) :
    ∀ props, buildProperties fs props = Except.error "Unsupported field type" := by
  induction fs with
  | nil => obtain ⟨f, hf, _⟩ := h; simp at hf
  | cons g gs ih =>
    intro props
    cases hg : g.Type_ with
    | other code => simp [buildProperties, fieldTypeString, hg]
    | TextField =>
      obtain ⟨f, hf, h1, h2⟩ := h
      rcases List.mem_cons.1 hf with rfl | hmem
      · exact absurd hg h1
      · simp only [buildProperties, fieldTypeString, hg]
        exact ih ⟨f, hmem, h1, h2⟩ _
    | NumericField =>
      obtain ⟨f, hf, h1, h2⟩ := h
      rcases List.mem_cons.1 hf with rfl | hmem
      · exact absurd hg h2
      · simp only [buildProperties, fieldTypeString, hg]
        exact ih ⟨f, hmem, h1, h2⟩ _

theorem buildProperties_supported (fs : List Field)
    (h : ∀ f ∈ fs, f.Type_ = FieldType.TextField ∨ f.Type_ = FieldType.NumericField) :
    ∀ props, buildProperties fs props
      = Except.ok (fs.foldl (fun m f => mapInsert m f.Name (fieldEntry f)) props) := by
  induction fs with
  | nil => intro props; rfl
  | cons g gs ih =>
    intro props
    have ih2 := ih (fun f hf => h f (List.mem_cons_of_mem _ hf))
    rcases h g (List.mem_cons_self _ _) with hg | hg
    · simp only [buildProperties, fieldTypeString, hg, List.foldl_cons, mapInsert_twice, ih2,
        fieldEntry, mapInsert]
    · simp only [buildProperties, fieldTypeString, hg, List.foldl_cons, mapInsert_twice, ih2,
        fieldEntry, mapInsert]

theorem mapLookup_foldl_other (post : List Field) (k : String)
    (hne : ∀ g ∈ post, g.Name ≠ k) :
    ∀ props, mapLookup (post.foldl (fun m f => mapInsert m f.Name (fieldEntry f)) props) k
      = mapLookup props k := by
  induction post with
  | nil => intro props; rfl
  | cons g gs ih =>
    intro props
    rw [List.foldl_cons, ih (fun q hq => hne q (List.mem_cons_of_mem _ hq)),
      mapLookup_insert_other _ _ _ _ (hne g (List.mem_cons_self _ _))]

/-- C7, counterexample. The mapping is a Go map keyed by field name, so a later
field overwrites an earlier one of the same name: for the fields
`("a", Text), ("a", Numeric)` every field is Text or Numeric and `Create` posts
its request, but the only entry of the mapping built is `a` with type "double":
the text field `a` is not assigned "string". -/
theorem C7_counterexample_duplicate_name :
    Create ⟨⟨[⟨"a", FieldType.TextField, 1⟩, ⟨"a", FieldType.NumericField, 1⟩]⟩, "wik", "doc"⟩
        (fun _ => none)
      = ⟨some ⟨"wik",
            [("doc", ⟨[("a", [("type", MappingValue.str "double")])]⟩),
              ("autocomplete", autocompleteMapping)]⟩,
          none⟩ := by
  decide

/-- C7 (amended). `Create` fails with "Unsupported field type" and issues no
create-index request whenever some declared field is neither Text nor Numeric.
When every field is Text or Numeric no such error arises: the request is issued
with the mapping built under the index type and the error is the one the
backend answers; in that mapping the name of a field is keyed to type "string"
when the last field declared under that name is a Text field and to "double"
when it is a Numeric field. -/
theorem C7_create_mapping (i : Index) (respond : CreateIndexRequest → Option String) :
    ((∃ f ∈ i.md.Fields, f.Type_ ≠ FieldType.TextField ∧ f.Type_ ≠ FieldType.NumericField) →
      Create i respond = ⟨none, some "Unsupported field type"⟩) ∧
    ((∀ f ∈ i.md.Fields, f.Type_ = FieldType.TextField ∨ f.Type_ = FieldType.NumericField) →
      ∃ props,
        buildProperties i.md.Fields [] = Except.ok props ∧
        Create i respond
          = ⟨some ⟨i.name,
                mapInsert (mapInsert [] i.typ ⟨props⟩) "autocomplete" autocompleteMapping⟩,
              respond ⟨i.name,
                mapInsert (mapInsert [] i.typ ⟨props⟩) "autocomplete" autocompleteMapping⟩⟩ ∧
        ∀ pre f post, i.md.Fields = pre ++ f :: post → (∀ g ∈ post, g.Name ≠ f.Name) →
          (f.Type_ = FieldType.TextField →
            mapLookup props f.Name = some [("type", MappingValue.str "string")]) ∧
          (f.Type_ = FieldType.NumericField →
            mapLookup props f.Name = some [("type", MappingValue.str "double")])) := by
  constructor
  · intro h
    simp only [Create, buildProperties_unsupported i.md.Fields h []]
  · intro h
    refine ⟨_, buildProperties_supported i.md.Fields h [], ?_, ?_⟩
    · simp only [Create, buildProperties_supported i.md.Fields h []]
    · intro pre f post hsplit hlast
      have hl : mapLookup
          (i.md.Fields.foldl (fun m f => mapInsert m f.Name (fieldEntry f)) []) f.Name
          = some (fieldEntry f) := by
        rw [hsplit, List.foldl_append, List.foldl_cons, mapLookup_foldl_other post f.Name hlast,
          mapLookup_insert_same]
      constructor
      · intro ht; rw [hl]; simp [fieldEntry, ht]
      · intro ht; rw [hl]; simp [fieldEntry, ht]

/-- C7, witness: the hypotheses of the theorem hold at a concrete input, at which
it is applied. -/
theorem C7_create_mapping_witness :
    (∃ f ∈ [(⟨"t", FieldType.other 7, 1⟩ : Field)],
      f.Type_ ≠ FieldType.TextField ∧ f.Type_ ≠ FieldType.NumericField) ∧
    Create ⟨⟨[⟨"t", FieldType.other 7, 1⟩]⟩, "wik", "doc"⟩ (fun _ => none)
      = ⟨none, some "Unsupported field type"⟩ ∧
    (∀ f ∈ [(⟨"title", FieldType.TextField, 10⟩ : Field), ⟨"score", FieldType.NumericField, 1⟩],
      f.Type_ = FieldType.TextField ∨ f.Type_ = FieldType.NumericField) ∧
    (∃ props,
      buildProperties [⟨"title", FieldType.TextField, 10⟩, ⟨"score", FieldType.NumericField, 1⟩] []
        = Except.ok props ∧
      mapLookup props "title" = some [("type", MappingValue.str "string")] ∧
      mapLookup props "score" = some [("type", MappingValue.str "double")]) := by
  refine ⟨⟨_, List.mem_singleton.2 rfl, by decide, by decide⟩, ?_, by decide, ?_⟩
  · exact (C7_create_mapping ⟨⟨[⟨"t", FieldType.other 7, 1⟩]⟩, "wik", "doc"⟩ (fun _ => none)).1
      ⟨_, List.mem_singleton.2 rfl, by decide, by decide⟩
  · obtain ⟨props, hb, _, hl⟩ :=
      (C7_create_mapping
        ⟨⟨[⟨"title", FieldType.TextField, 10⟩, ⟨"score", FieldType.NumericField, 1⟩]⟩, "wik", "doc"⟩
        (fun _ => none)).2 (by decide)
    exact ⟨props, hb,
      (hl [] ⟨"title", FieldType.TextField, 10⟩ [⟨"score", FieldType.NumericField, 1⟩] rfl
        (by decide)).1 rfl,
      (hl [⟨"title", FieldType.TextField, 10⟩] ⟨"score", FieldType.NumericField, 1⟩ [] rfl
        (by decide)).2 rfl⟩

end RediSearchBenchmark
